import Mathlib

/-!
Verification development for the streaming response orchestration pipeline of
the interview-prep-assistant repository.

The definitions below are a shallow embedding of the Python source:

* `src/src/app.py` — `stream_chat_and_speak` (token loop, `flush_tts_chunk`),
  `process_and_respond` (admission guard), `cancel_generation`,
  `get_tts_cache_key`, `get_cached_tts`, `store_tts_cache`;
* `src/src/redis_store.py` — `_check_rate_limit_memory` and the in-memory
  TTS-cache fallback (`get_tts_cache`, `set_tts_cache`);
* `src/src/config.py` — the relevant default configuration values.

Text is modelled as `List Char` (Python `str` is a sequence of code points).
Wall-clock times are modelled as natural numbers.  The cooperative
cancellation flag of the per-turn token is modelled as a read oracle
`Nat → Bool`: the n-th read of `cancel_token['cancelled']` during a turn
returns `oracle n`.  Since a token's flag is only ever flipped from `False`
to `True` (`cancel_generation`), the oracle of an actual execution is
monotone; theorems about cancellation take this monotonicity as a
hypothesis.  External calls (the speech-synthesis service) are a parameter
`synth`; a raised exception is modelled as `Except.error`.
-/

namespace InterviewPrep

/-! ## Python string helpers

`isPyWs` models the ASCII part of the whitespace class used by Python's
`str.strip` / `str.rstrip` (space, tab, newline, carriage return, vertical
tab, form feed); the source never manipulates the rarer Unicode whitespace
code points that Python would also strip. -/

def isPyWs (c : Char) : Bool :=
  c = ' ' || c = '\t' || c = '\n' || c = '\r' || c = '\x0b' || c = '\x0c'

/-- Python `str.lstrip()` on a list of characters. -/
def lstrip (s : List Char) : List Char := s.dropWhile isPyWs

/-- Python `str.rstrip()` on a list of characters. -/
def rstrip (s : List Char) : List Char := (s.reverse.dropWhile isPyWs).reverse

/-- Python `str.strip()` on a list of characters. -/
def strip (s : List Char) : List Char := lstrip (rstrip s)

/-! ## Configuration defaults (src/src/config.py) -/

def STREAMING_FIRST_CHUNK_SENTENCES : Nat := 1

def STREAMING_SUBSEQUENT_CHUNK_SENTENCES : Nat := 2

def TTS_CACHE_MAX_SIZE : Nat := 200

def RATE_LIMIT_REQUESTS_PER_MINUTE : Nat := 15

def RATE_LIMIT_REQUESTS_PER_HOUR : Nat := 200

/-! ## Sentence-boundary detection (src/src/app.py, token loop)

The loop keeps `sentence_enders = '.!?'` and, after appending each streamed
token to the buffer, tests
`stripped = buffer.rstrip(); stripped and stripped[-1] in sentence_enders and len(stripped) > 10`. -/

def sentence_enders : List Char := ['.', '!', '?']

/-- The sentence-boundary test performed by the token loop of
`stream_chat_and_speak` on the current buffer. -/
def boundaryDetected (buffer : List Char) : Bool :=
  let stripped := rstrip buffer
  !stripped.isEmpty &&
    (match stripped.getLast? with
      | some c => sentence_enders.contains c
      | none => false) &&
    decide (10 < stripped.length)

/-! ## Events and state of one streamed turn -/

/-- Observable events of one turn, in emission order.  `readCancel b` records
a poll of the cancellation token's flag returning `b`; the remaining
constructors are the socket emissions and log calls of the source. -/
inductive Ev where
  | readCancel (b : Bool)
  | textChunk (text : List Char) (idx : Nat)
  | audioChunk (audio : List Char) (idx : Nat)
  | streamComplete (fullText : List Char) (total : Nat)
  | logError
  | statusMsg (msg : List Char)
deriving DecidableEq, Repr

/-- One item of the upstream model stream: a token delta, or the stream
raising an exception at that point. -/
inductive StreamItem where
  | tok (s : List Char)
  | fail
deriving DecidableEq, Repr

/-- The mutable locals of `stream_chat_and_speak`: `full_text`, `buffer`,
`chunk_index`, `sentence_count_in_buffer`, `first_chunk_sent`, plus the
ghost read counter `rc` indexing successive polls of the cancellation
flag. -/
structure GenSt where
  fullText : List Char
  buffer : List Char
  chunkIndex : Nat
  sentCount : Nat
  firstChunkSent : Bool
  rc : Nat
deriving DecidableEq, Repr

def genInit : GenSt := ⟨[], [], 0, 0, false, 0⟩

/-- The helper `flush_tts_chunk(text_chunk)` from `stream_chat_and_speak`.  Emits the
text chunk, re-checks cancellation, synthesizes (the external call is the
parameter `synth`), re-checks cancellation again, and emits the audio;
a synthesis exception is logged and swallowed.  Every path that gets past
the second cancellation check increments `chunk_index` and sets
`first_chunk_sent`. -/
def flush_tts_chunk (synth : List Char → Except Unit (List Char)) (oracle : Nat → Bool)
    (st : GenSt) (text : List Char) : GenSt × List Ev :=
  if strip text = [] then (st, [])
  else if oracle st.rc then ({st with rc := st.rc + 1}, [.readCancel true])
  else
    let st1 : GenSt := {st with rc := st.rc + 1}
    let pre : List Ev := [.readCancel false, .textChunk text st.chunkIndex]
    if oracle st1.rc then
      ({st1 with rc := st1.rc + 1, chunkIndex := st1.chunkIndex + 1, firstChunkSent := true},
        pre ++ [.readCancel true])
    else
      let st2 : GenSt := {st1 with rc := st1.rc + 1}
      match synth text with
      | .error _ =>
          ({st2 with chunkIndex := st2.chunkIndex + 1, firstChunkSent := true},
            pre ++ [.readCancel false, .logError])
      | .ok audio =>
          if oracle st2.rc then
            ({st2 with rc := st2.rc + 1, chunkIndex := st2.chunkIndex + 1, firstChunkSent := true},
              pre ++ [.readCancel false, .readCancel true])
          else
            ({st2 with rc := st2.rc + 1, chunkIndex := st2.chunkIndex + 1, firstChunkSent := true},
              pre ++ [.readCancel false, .readCancel false, .audioChunk audio st2.chunkIndex])

/-- Result of processing one streamed token: new state, emitted events,
whether the loop `break`s, and (ghost) the values of
`sentence_count_in_buffer` at each `flush_tts_chunk` call performed. -/
structure StepOut where
  st : GenSt
  trace : List Ev
  broke : Bool
  counts : List Nat
deriving DecidableEq, Repr

/-- The body of the token loop of `stream_chat_and_speak` for one delta
`t` (after the loop-top cancellation check): skip falsy deltas, append to
`full_text` and `buffer`, test the sentence boundary, and on reaching the
required sentence count yield, re-check cancellation, flush, and re-check
again. -/
def feedTok (first subseq : Nat) (synth : List Char → Except Unit (List Char))
    (oracle : Nat → Bool) (st : GenSt) (t : List Char) : StepOut :=
  if t = [] then ⟨st, [], false, []⟩
  else
    let fullText := st.fullText ++ t
    let buffer := st.buffer ++ t
    if boundaryDetected buffer then
      let cnt := st.sentCount + 1
      let needed := if st.firstChunkSent then subseq else first
      if needed ≤ cnt then
        if oracle st.rc then
          ⟨{st with fullText := fullText, buffer := buffer, sentCount := cnt, rc := st.rc + 1},
            [.readCancel true], true, []⟩
        else
          let stA : GenSt :=
            {st with fullText := fullText, buffer := buffer, sentCount := cnt, rc := st.rc + 1}
          let fo := flush_tts_chunk synth oracle stA (strip buffer)
          let stC : GenSt := {fo.1 with buffer := [], sentCount := 0}
          if oracle stC.rc then
            ⟨{stC with rc := stC.rc + 1}, .readCancel false :: fo.2 ++ [.readCancel true],
              true, [cnt]⟩
          else
            ⟨{stC with rc := stC.rc + 1}, .readCancel false :: fo.2 ++ [.readCancel false],
              false, [cnt]⟩
      else
        ⟨{st with fullText := fullText, buffer := buffer, sentCount := cnt}, [], false, []⟩
    else
      ⟨{st with fullText := fullText, buffer := buffer}, [], false, []⟩

/-- Result of the token loop: final state, emitted events, whether the
upstream stream raised, and the ghost flush counts. -/
structure RunOut where
  st : GenSt
  trace : List Ev
  raised : Bool
  counts : List Nat
deriving DecidableEq, Repr

/-- The token loop of `stream_chat_and_speak`: for each upstream item,
check the cancellation flag (`break` if set), then process the delta.
A `StreamItem.fail` models the upstream iterator raising: the `except`
clause logs and re-raises. -/
def runItems (first subseq : Nat) (synth : List Char → Except Unit (List Char))
    (oracle : Nat → Bool) (st : GenSt) : List StreamItem → RunOut
  | [] => ⟨st, [], false, []⟩
  | .fail :: _ => ⟨st, [.logError], true, []⟩
  | .tok t :: rest =>
      if oracle st.rc then ⟨{st with rc := st.rc + 1}, [.readCancel true], false, []⟩
      else
        let so := feedTok first subseq synth oracle {st with rc := st.rc + 1} t
        if so.broke then ⟨so.st, .readCancel false :: so.trace, false, so.counts⟩
        else
          let ro := runItems first subseq synth oracle so.st rest
          ⟨ro.st, .readCancel false :: so.trace ++ ro.trace, ro.raised, so.counts ++ ro.counts⟩

/-- The section of `stream_chat_and_speak` after the token loop: flush the
remaining buffer (if non-empty after stripping and not cancelled) and emit
`stream_complete` (if not cancelled). -/
def postLoop (synth : List Char → Except Unit (List Char)) (oracle : Nat → Bool)
    (st : GenSt) : GenSt × List Ev :=
  let a :=
    if strip st.buffer = [] then (st, ([] : List Ev))
    else if oracle st.rc then ({st with rc := st.rc + 1}, [Ev.readCancel true])
    else
      let fo := flush_tts_chunk synth oracle {st with rc := st.rc + 1} (strip st.buffer)
      (fo.1, Ev.readCancel false :: fo.2)
  if oracle a.1.rc then ({a.1 with rc := a.1.rc + 1}, a.2 ++ [.readCancel true])
  else
    ({a.1 with rc := a.1.rc + 1},
      a.2 ++ [.readCancel false, .streamComplete a.1.fullText a.1.chunkIndex])

/-- The function `stream_chat_and_speak`: the token loop followed, when the stream did
not raise, by the final flush and completion signal.  On a raise the
exception propagates (logged inside `runItems`). -/
def stream_chat_and_speak (first subseq : Nat) (synth : List Char → Except Unit (List Char))
    (oracle : Nat → Bool) (items : List StreamItem) : RunOut :=
  let ro := runItems first subseq synth oracle genInit items
  if ro.raised then ro
  else
    let p := postLoop synth oracle ro.st
    ⟨p.1, ro.trace ++ p.2, false, ro.counts⟩

/-- The generic user-facing failure message emitted by
`_process_and_respond_inner`'s exception handler. -/
def genericFailureMsg : List Char := "Something went wrong. Please try again.".data

/-- One turn as driven by `_process_and_respond_inner`: run the streaming
pipeline; if it raised, the outer handler logs the error and emits the
single generic status message (no internal detail). -/
def processTurn (first subseq : Nat) (synth : List Char → Except Unit (List Char))
    (oracle : Nat → Bool) (items : List StreamItem) : RunOut :=
  let ro := stream_chat_and_speak first subseq synth oracle items
  if ro.raised then ⟨ro.st, ro.trace ++ [.logError, .statusMsg genericFailureMsg], true, ro.counts⟩
  else ro

/-! ## Session control: processing lock and cancellation registry
(src/src/app.py, `processing_lock`, `active_generations`,
`cancel_generation`, `process_and_respond`) -/

/-- Per-session control state: the generation-in-progress flag
(`processing_lock.get(sid)`) and the `cancelled` flag of the currently
registered cancellation token (`active_generations.get(sid)`), `none` when
no token is registered. -/
structure Ctl where
  processingLock : Bool
  tokenCancelled : Option Bool
deriving DecidableEq, Repr

/-- The function `cancel_generation(sid)`: set the registered token's `cancelled` flag
(treating a missing token as nothing to cancel) and release the processing
lock. -/
def cancel_generation (c : Ctl) : Ctl :=
  { tokenCancelled := c.tokenCancelled.map (fun _ => true), processingLock := false }

/-- Steps of the admission preamble of `process_and_respond`, in order. -/
inductive AdmitEv where
  | checkLock (b : Bool)
  | cancelPrior
  | yieldCtl
  | acquireLock
deriving DecidableEq, Repr

/-- The concurrency guard at the top of `process_and_respond`: if the
session's processing lock is held, cancel the existing generation and
yield (`eventlet.sleep(0.05)`) before proceeding; then take the lock. -/
def admitTurn (c : Ctl) : Ctl × List AdmitEv :=
  if c.processingLock then
    ({cancel_generation c with processingLock := true},
      [.checkLock true, .cancelPrior, .yieldCtl, .acquireLock])
  else ({c with processingLock := true}, [.checkLock false, .acquireLock])

/-- Result of `process_and_respond` for one turn: control state after the
`finally` blocks, the admission trace, and the turn's output. -/
structure TurnOut where
  ctl : Ctl
  admitTrace : List AdmitEv
  out : RunOut
deriving Repr

/-- The function `process_and_respond`: admission guard, then the turn; the `finally`
blocks pop the processing lock and the registered token unconditionally. -/
def process_and_respond (first subseq : Nat) (synth : List Char → Except Unit (List Char))
    (oracle : Nat → Bool) (c : Ctl) (items : List StreamItem) : TurnOut :=
  ⟨{processingLock := false, tokenCancelled := none}, (admitTurn c).2,
    processTurn first subseq synth oracle items⟩

/-! ## Trace observations -/

def isOutput : Ev → Bool
  | .textChunk _ _ => true
  | .audioChunk _ _ => true
  | .streamComplete _ _ => true
  | _ => false

/-- The texts of the `text_chunk` events of a trace, in order. -/
def textsOf (tr : List Ev) : List (List Char) :=
  tr.filterMap fun e => match e with | .textChunk t _ => some t | _ => none

/-- The indices of the `audio_chunk` events of a trace, in order. -/
def audioIdx (tr : List Ev) : List Nat :=
  tr.filterMap fun e => match e with | .audioChunk _ i => some i | _ => none

/-- The number of `status` events in a trace. -/
def statusCount (tr : List Ev) : Nat :=
  (tr.filter fun e => match e with | .statusMsg _ => true | _ => false).length

/-- Predicate `noOutB tr` holds when a trace contains no user-visible output events
(`text_chunk`, `audio_chunk`, `stream_complete`). -/
def noOutB (tr : List Ev) : Bool := tr.all fun e => !isOutput e

/-- A trace is cancellation-clean when after every poll of the cancellation
flag that returned `true`, no later output event occurs. -/
def cancelClean : List Ev → Bool
  | [] => true
  | e :: rest => (if e = Ev.readCancel true then noOutB rest else true) && cancelClean rest

/-- The flag of a turn's cancellation token is set at most once and never
cleared, so the sequence of values read at successive checkpoints is
monotone: once a read returns `true`, all later reads do. -/
def MonoOracle (oracle : Nat → Bool) : Prop :=
  ∀ m n : Nat, m ≤ n → oracle m = true → oracle n = true

/-- Some checkpoint before read-counter `rc` observed the flag `true`. -/
@[reducible]
def SeenTrue (oracle : Nat → Bool) (rc : Nat) : Prop :=
  ∃ k, k < rc ∧ oracle k = true

/-- Segment contract for a piece of the turn between read-counters `rc`
and `rc'`: the counter does not decrease, the piece's trace is
cancellation-clean, a `true` read inside it certifies `SeenTrue` at its
end, and if the flag was already observed `true` before it, it emits no
output at all. -/
@[reducible]
def Seg (oracle : Nat → Bool) (rc rc' : Nat) (tr : List Ev) : Prop :=
  rc ≤ rc' ∧ cancelClean tr = true ∧
    (Ev.readCancel true ∈ tr → SeenTrue oracle rc') ∧
    (SeenTrue oracle rc → noOutB tr = true)

/-- The fixed schedule in which the cancellation flag is never set. -/
def oracleFalse : Nat → Bool := fun _ => false

/-- The fixed schedule in which the cancellation flag is already set. -/
def oracleTrue : Nat → Bool := fun _ => true

/-- A synthesis stub that echoes the chunk text as its audio payload. -/
def synthOk : List Char → Except Unit (List Char) := fun t => .ok t

/-- A synthesis stub that always raises. -/
def synthFail : List Char → Except Unit (List Char) := fun _ => .error ()

/-! ## In-memory rate limiter (src/src/redis_store.py, `_check_rate_limit_memory`) -/

/-- The function `_check_rate_limit_memory(sid, rpm, rph)` acting on one session's
timestamp list: prune entries at least an hour old, reject when the
minute or hour window is at budget, otherwise record `now`.  Returns the
verdict and the session's stored timestamp list after the call. -/
def check_rate_limit_memory (rpm rph : Nat) (now : Nat) (timestamps : List Nat) :
    Bool × List Nat :=
  let ts := timestamps.filter fun t => decide (now - t < 3600)
  let recent_minute := ts.filter fun t => decide (now - t < 60)
  if rpm ≤ recent_minute.length then (false, ts)
  else if rph ≤ ts.length then (false, ts)
  else (true, ts ++ [now])

/-- A sequence of calls to the in-memory rate limiter for one session, at
the given call times; returns the verdicts in order. -/
def runRateCalls (rpm rph : Nat) (ts : List Nat) : List Nat → List Bool
  | [] => []
  | now :: rest =>
      let r := check_rate_limit_memory rpm rph now ts
      r.1 :: runRateCalls rpm rph r.2 rest

/-! ## MD5 (the digest used by `get_tts_cache_key`)

`hashlib.md5(raw.encode()).hexdigest()` over the UTF-8 bytes of the raw
string.  Machine words are naturals reduced modulo `2 ^ 32`. -/

/-- UTF-8 encoding of one code point (Python `str.encode()`). -/
def utf8Bytes (c : Char) : List Nat :=
  let n := c.toNat
  if n < 128 then [n]
  else if n < 2048 then [192 + n / 64, 128 + n % 64]
  else if n < 65536 then [224 + n / 4096, 128 + n / 64 % 64, 128 + n % 64]
  else [240 + n / 262144, 128 + n / 4096 % 64, 128 + n / 64 % 64, 128 + n % 64]

/-- UTF-8 bytes of a string. -/
def strBytes (s : List Char) : List Nat := (s.map utf8Bytes).flatten

/-- The 64 per-round shift amounts of MD5. -/
def md5S : List Nat :=
  [7, 12, 17, 22, 7, 12, 17, 22, 7, 12, 17, 22, 7, 12, 17, 22,
   5, 9, 14, 20, 5, 9, 14, 20, 5, 9, 14, 20, 5, 9, 14, 20,
   4, 11, 16, 23, 4, 11, 16, 23, 4, 11, 16, 23, 4, 11, 16, 23,
   6, 10, 15, 21, 6, 10, 15, 21, 6, 10, 15, 21, 6, 10, 15, 21]

/-- The 64 sine-derived round constants of MD5. -/
def md5K : List Nat :=
  [0xd76aa478, 0xe8c7b756, 0x242070db, 0xc1bdceee,
   0xf57c0faf, 0x4787c62a, 0xa8304613, 0xfd469501,
   0x698098d8, 0x8b44f7af, 0xffff5bb1, 0x895cd7be,
   0x6b901122, 0xfd987193, 0xa679438e, 0x49b40821,
   0xf61e2562, 0xc040b340, 0x265e5a51, 0xe9b6c7aa,
   0xd62f105d, 0x02441453, 0xd8a1e681, 0xe7d3fbc8,
   0x21e1cde6, 0xc33707d6, 0xf4d50d87, 0x455a14ed,
   0xa9e3e905, 0xfcefa3f8, 0x676f02d9, 0x8d2a4c8a,
   0xfffa3942, 0x8771f681, 0x6d9d6122, 0xfde5380c,
   0xa4beea44, 0x4bdecfa9, 0xf6bb4b60, 0xbebfbc70,
   0x289b7ec6, 0xeaa127fa, 0xd4ef3085, 0x04881d05,
   0xd9d4d039, 0xe6db99e5, 0x1fa27cf8, 0xc4ac5665,
   0xf4292244, 0x432aff97, 0xab9423a7, 0xfc93a039,
   0x655b59c3, 0x8f0ccc92, 0xffeff47d, 0x85845dd1,
   0x6fa87e4f, 0xfe2ce6e0, 0xa3014314, 0x4e0811a1,
   0xf7537e82, 0xbd3af235, 0x2ad7d2bb, 0xeb86d391]

/-- A 32-bit left rotation on naturals below `2 ^ 32`. -/
def rotl32 (x n : Nat) : Nat := (x * 2 ^ n) % 4294967296 + x / 2 ^ (32 - n)

/-- Bitwise complement within 32 bits. -/
def not32 (x : Nat) : Nat := x ^^^ 4294967295

/-- One MD5 round applied to the working registers, given the message
words of the current block. -/
def md5Round (ws : List Nat) (st : Nat × Nat × Nat × Nat) (i : Nat) : Nat × Nat × Nat × Nat :=
  let a := st.1
  let b := st.2.1
  let c := st.2.2.1
  let d := st.2.2.2
  let fg : Nat × Nat :=
    if i < 16 then ((b &&& c) ||| (not32 b &&& d), i)
    else if i < 32 then ((d &&& b) ||| (not32 d &&& c), (5 * i + 1) % 16)
    else if i < 48 then (b ^^^ c ^^^ d, (3 * i + 5) % 16)
    else (c ^^^ (b ||| not32 d), 7 * i % 16)
  let f := (fg.1 + a + md5K.getD i 0 + ws.getD fg.2 0) % 4294967296
  (d, (b + rotl32 f (md5S.getD i 0)) % 4294967296, b, c)

/-- Split a byte list into 64-byte blocks. -/
def chunk64 (l : List Nat) : List (List Nat) :=
  match l with
  | [] => []
  | x :: xs => (x :: xs.take 63) :: chunk64 (xs.drop 63)
termination_by l.length
decreasing_by simp; omega

/-- Assemble little-endian 32-bit words from a block's bytes. -/
def leWords : List Nat → List Nat
  | b0 :: b1 :: b2 :: b3 :: rest => (b0 + 256 * (b1 + 256 * (b2 + 256 * b3))) :: leWords rest
  | _ => []

/-- MD5 padding: `0x80`, zeros to 56 mod 64, then the bit length as a
little-endian 64-bit quantity. -/
def md5Pad (msg : List Nat) : List Nat :=
  let padLen := (55 + 64 - msg.length % 64) % 64
  msg ++ 128 :: List.replicate padLen 0 ++
    ((List.range 8).map fun j => msg.length * 8 / 2 ^ (8 * j) % 256)

/-- Process one 64-byte block into the running digest state. -/
def md5Block (st : Nat × Nat × Nat × Nat) (block : List Nat) : Nat × Nat × Nat × Nat :=
  let ws := leWords block
  let r := (List.range 64).foldl (md5Round ws) st
  ((st.1 + r.1) % 4294967296, (st.2.1 + r.2.1) % 4294967296,
    (st.2.2.1 + r.2.2.1) % 4294967296, (st.2.2.2 + r.2.2.2) % 4294967296)

def hexDigit (n : Nat) : Char := "0123456789abcdef".data.getD n '0'

/-- Little-endian hex rendering of one 32-bit word (8 hex characters). -/
def hexLE32 (x : Nat) : List Char :=
  ((List.range 4).map fun j =>
    [hexDigit (x / 2 ^ (8 * j) % 256 / 16), hexDigit (x / 2 ^ (8 * j) % 256 % 16)]).flatten

/-- The MD5 hex digest of a byte list. -/
def md5hex (msg : List Nat) : List Char :=
  let st := (chunk64 (md5Pad msg)).foldl md5Block
    (0x67452301, 0xefcdab89, 0x98badcfe, 0x10325476)
  hexLE32 st.1 ++ hexLE32 st.2.1 ++ hexLE32 st.2.2.1 ++ hexLE32 st.2.2.2

/-! ## TTS cache (src/src/app.py key derivation; src/src/redis_store.py
in-memory fallback) -/

/-- The function `get_tts_cache_key(text, voice, mode)`:
`hashlib.md5(f"{text}|{voice}|{mode}".encode()).hexdigest()`. -/
def get_tts_cache_key (text voice mode : List Char) : List Char :=
  md5hex (strBytes (text ++ '|' :: voice ++ '|' :: mode))

/-- One entry of `_tts_cache_memory`: the stored base64 audio payload and
its last-used timestamp (the `size` field is derived and irrelevant). -/
structure CacheEntry where
  audio_b64 : List Char
  last_used : Nat
deriving DecidableEq, Repr

/-- The dictionary `_tts_cache_memory` as an insertion-ordered association list (Python
dicts preserve insertion order; updating an existing key keeps its
position). -/
abbrev TTSCache := List (List Char × CacheEntry)

/-- Dictionary lookup: the entry stored under `k`, if any. -/
def cacheLookup (c : TTSCache) (k : List Char) : Option CacheEntry :=
  (c.find? fun p => decide (p.1 = k)).map (·.2)

/-- Python `del d[k]` for the insertion-ordered dictionary model. -/
def delKey : TTSCache → List Char → TTSCache
  | [], _ => []
  | p :: rest, k => if p.1 = k then rest else p :: delKey rest k

/-- Python `d[k] = e`: update in place when present, else append. -/
def dictInsert (c : TTSCache) (k : List Char) (e : CacheEntry) : TTSCache :=
  if (c.find? fun p => decide (p.1 = k)).isSome then
    c.map fun p => if p.1 = k then (k, e) else p
  else c ++ [(k, e)]

/-- Python `min(_tts_cache_memory, key=lambda k: ...['last_used'])`: the first key
in iteration order attaining the minimal last-used timestamp. -/
def minByLU (p : List Char × CacheEntry) (rest : TTSCache) : List Char × CacheEntry :=
  rest.foldl (fun acc q => if q.2.last_used < acc.2.last_used then q else acc) p

/-- The function `get_tts_cache(key)` (memory fallback): on a hit refresh the entry's
last-used timestamp and return its payload. -/
def get_tts_cache (c : TTSCache) (k : List Char) (now : Nat) : Option (List Char) × TTSCache :=
  match cacheLookup c k with
  | some e =>
      (some e.audio_b64,
        c.map fun p => if p.1 = k then (p.1, {p.2 with last_used := now}) else p)
  | none => (none, c)

/-- The function `set_tts_cache(key, audio_b64, max_size)` (memory fallback): when at or
above capacity first delete the least-recently-used entry (on an empty
dictionary the source's `min` would raise `ValueError`; theorems assume a
positive capacity, as in every call site), then store the new entry with
the current time. -/
def set_tts_cache (c : TTSCache) (k : List Char) (audio : List Char) (max_size now : Nat) :
    TTSCache :=
  let c1 :=
    if max_size ≤ c.length then
      match c with
      | [] => []
      | p :: rest => delKey (p :: rest) (minByLU p rest).1
    else c
  dictInsert c1 k ⟨audio, now⟩

/-- The function `store_tts_cache(text, voice, mode, audio_b64)` from app.py. -/
def store_tts_cache (c : TTSCache) (text voice mode audio : List Char) (max_size now : Nat) :
    TTSCache :=
  set_tts_cache c (get_tts_cache_key text voice mode) audio max_size now

/-- The function `get_cached_tts(text, voice, mode)` from app.py. -/
def get_cached_tts (c : TTSCache) (text voice mode : List Char) (now : Nat) :
    Option (List Char) × TTSCache :=
  get_tts_cache c (get_tts_cache_key text voice mode) now

/-- One cache operation at the triple level. -/
inductive TtsOp where
  | put (text voice mode audio : List Char) (now : Nat)
  | get (text voice mode : List Char) (now : Nat)
deriving DecidableEq, Repr

/-- Run a sequence of cache operations against the in-memory cache. -/
def runTtsOps (max_size : Nat) (c : TTSCache) : List TtsOp → TTSCache
  | [] => c
  | .put t v m a now :: rest => runTtsOps max_size (store_tts_cache c t v m a max_size now) rest
  | .get t v m now :: rest => runTtsOps max_size (get_cached_tts c t v m now).2 rest

/-- Provenance of a cache entry: some put among `ops` stored this entry's
payload under a triple whose derived key is this entry's key. -/
def ProvOf (ops : List TtsOp) (p : List Char × CacheEntry) : Prop :=
  ∃ t v m now, TtsOp.put t v m p.2.audio_b64 now ∈ ops ∧ get_tts_cache_key t v m = p.1

/-! ## Spec-side definitions used for refinement comparisons -/

/-- Modelled from the spec's words (for comparison against the run's ghost
flush counts): the sentence-count policy of §4.4 — the first chunk of a
turn is released at `first` accumulated sentences when no chunk has been
sent yet, and every later chunk at `subseq` accumulated sentences. -/
def countsPattern (first subseq : Nat) : Bool → Nat → List Nat
  | _, 0 => []
  | fcs, n + 1 => (if fcs then subseq else first) :: countsPattern first subseq true n

/-- Modelled from the spec's words (for comparison against
`boundaryDetected`): the spec lists the sentence-terminating boundaries as
`.`, `!`, `?`, and the ellipsis, with sufficient preceding content — read,
as in the code, as the right-stripped buffer exceeding 10 characters. -/
def boundarySpec (buffer : List Char) : Bool :=
  let stripped := rstrip buffer
  !stripped.isEmpty &&
    (match stripped.getLast? with
      | some c => ['.', '!', '?', '…'].contains c
      | none => false) &&
    decide (10 < stripped.length)

/-! ## Lemmas about the Python string helpers -/

theorem rstrip_eq_rdropWhile (s : List Char) : rstrip s = s.rdropWhile isPyWs := rfl

theorem strip_eq_dropWhile (s : List Char) : strip s = (s.rdropWhile isPyWs).dropWhile isPyWs :=
  rfl

theorem mem_rstrip_or_ws {s : List Char} {c : Char} (h : c ∈ s) :
    c ∈ rstrip s ∨ isPyWs c = true := by
  have hs := congrArg List.reverse
    (List.takeWhile_append_dropWhile (p := isPyWs) (l := s.reverse))
  rw [List.reverse_append, List.reverse_reverse] at hs
  rw [← hs] at h
  rcases List.mem_append.1 h with h1 | h2
  · exact Or.inl h1
  · exact Or.inr (List.mem_takeWhile_imp (List.mem_reverse.1 h2))

theorem mem_of_mem_rstrip {s : List Char} {c : Char} (h : c ∈ rstrip s) : c ∈ s := by
  have h2 : c ∈ s.reverse.dropWhile isPyWs := List.mem_reverse.1 h
  exact List.mem_reverse.1 ((List.dropWhile_suffix isPyWs).sublist.subset h2)

theorem strip_eq_nil_iff {s : List Char} : strip s = [] ↔ s.all isPyWs = true := by
  rw [List.all_eq_true, strip_eq_dropWhile]
  constructor
  · intro h c hc
    rcases mem_rstrip_or_ws hc with h1 | h1
    · exact List.dropWhile_eq_nil_iff.1 h c (rstrip_eq_rdropWhile s ▸ h1)
    · exact h1
  · intro h
    exact List.dropWhile_eq_nil_iff.2 fun x hx =>
      h x (mem_of_mem_rstrip (rstrip_eq_rdropWhile s ▸ hx))

theorem rstrip_strip (s : List Char) : rstrip (strip s) = strip s := by
  rw [rstrip_eq_rdropWhile, List.rdropWhile_eq_self_iff]
  intro hl
  obtain ⟨t, ht⟩ : strip s <:+ s.rdropWhile isPyWs := strip_eq_dropWhile s ▸
    List.dropWhile_suffix isPyWs
  have hne : s.rdropWhile isPyWs ≠ [] := by
    rw [← ht]; exact fun hc => hl (List.append_eq_nil.1 hc).2
  have e1 : (s.rdropWhile isPyWs).getLast? = some ((s.rdropWhile isPyWs).getLast hne) :=
    List.getLast?_eq_getLast _ hne
  have e2 : (strip s).getLast? = some ((strip s).getLast hl) := List.getLast?_eq_getLast _ hl
  have e3 : (s.rdropWhile isPyWs).getLast? = (strip s).getLast? := by
    rw [← ht]; exact List.getLast?_append_of_ne_nil t hl
  have e4 : (s.rdropWhile isPyWs).getLast hne = (strip s).getLast hl :=
    Option.some.inj (by rw [← e1, e3, e2])
  have h5 := List.rdropWhile_last_not isPyWs s hne
  rw [e4] at h5
  simpa using h5

theorem strip_idem (s : List Char) : strip (strip s) = strip s := by
  show lstrip (rstrip (strip s)) = strip s
  rw [rstrip_strip]
  show ((s.rdropWhile isPyWs).dropWhile isPyWs).dropWhile isPyWs = strip s
  rw [List.dropWhile_idempotent]
  rfl

theorem boundary_parts {b : List Char} (h : boundaryDetected b = true) :
    ∃ c, (rstrip b).getLast? = some c ∧ sentence_enders.contains c = true ∧
      10 < (rstrip b).length := by
  simp only [boundaryDetected] at h
  cases hlast : (rstrip b).getLast? with
  | none => rw [hlast] at h; simp at h
  | some c =>
      rw [hlast] at h
      simp only [Bool.and_eq_true, decide_eq_true_eq] at h
      exact ⟨c, rfl, h.1.2, h.2⟩

theorem ender_not_ws {c : Char} (h : sentence_enders.contains c = true) : isPyWs c = false := by
  have : c ∈ sentence_enders := by simpa using h
  simp only [sentence_enders, List.mem_cons, List.mem_singleton] at this
  rcases this with rfl | rfl | rfl | hc
  · decide
  · decide
  · decide
  · simp at hc

theorem strip_ne_nil_of_boundary {b : List Char} (h : boundaryDetected b = true) :
    strip b ≠ [] := by
  obtain ⟨c, hlast, hc, _⟩ := boundary_parts h
  intro hnil
  have hall := List.all_eq_true.1 (strip_eq_nil_iff.1 hnil)
  have hmem : c ∈ rstrip b := by
    obtain ⟨hne, rfl⟩ := List.mem_getLast?_eq_getLast (by rw [hlast]; rfl)
    exact List.getLast_mem hne
  have := hall c (mem_of_mem_rstrip hmem)
  rw [ender_not_ws hc] at this
  exact Bool.false_ne_true this

/-! ## C5 — rate limiter -/

/-- C5: each call to the in-memory rate limiter first discards timestamps
at least an hour old; it returns `false` and records nothing when the
count of timestamps younger than 60 seconds reaches the per-minute budget
or the count younger than 3600 seconds reaches the per-hour budget, and
otherwise records the current timestamp and returns `true`.  With a
per-minute budget of 3, four rapid calls yield
`[true, true, true, false]`; a budget of 0 rejects every call. -/
theorem rate_limiter_spec :
    (∀ rpm rph now ts,
        ((check_rate_limit_memory rpm rph now ts).1 = true ↔
          ((ts.filter fun t => decide (now - t < 3600)).filter
              fun t => decide (now - t < 60)).length < rpm ∧
            (ts.filter fun t => decide (now - t < 3600)).length < rph) ∧
        (check_rate_limit_memory rpm rph now ts).2 =
          (if (check_rate_limit_memory rpm rph now ts).1 then
            (ts.filter fun t => decide (now - t < 3600)) ++ [now]
          else ts.filter fun t => decide (now - t < 3600))) ∧
    (∀ t : Nat, runRateCalls 3 200 [] [t, t, t, t] = [true, true, true, false]) ∧
    (∀ rph now ts, (check_rate_limit_memory 0 rph now ts).1 = false) := by
  refine ⟨fun rpm rph now ts => ?_, fun t => ?_, fun rph now ts => ?_⟩
  · simp only [check_rate_limit_memory]
    split
    next h =>
      refine ⟨⟨fun h' => absurd h' (by simp), fun h' => by omega⟩, by simp⟩
    next h =>
      split
      next h2 =>
        refine ⟨⟨fun h' => absurd h' (by simp), fun h' => by omega⟩, by simp⟩
      next h2 =>
        refine ⟨⟨fun _ => ⟨by omega, by omega⟩, fun _ => rfl⟩, by simp⟩
  · simp [runRateCalls, check_rate_limit_memory, Nat.sub_self]
  · simp only [check_rate_limit_memory]
    rw [if_pos (Nat.zero_le _)]

/-! ## C8 — sentence-boundary detection -/

/-- C8 (amended): on each non-empty streamed token the chunker increments
its sentence counter exactly when the updated buffer passes
`boundaryDetected` — right-stripped buffer non-empty, ending in one of
`.`, `!`, `?`, and longer than 10 characters (a flush resets the counter
to zero in the same step); a buffer failing this test never increments the
counter.  Every code-detected boundary also satisfies the spec's
description, but not conversely: the spec's ellipsis terminator is absent
from the code's `sentence_enders`. -/
theorem chunker_boundary_counting (first subseq : Nat)
    (synth : List Char → Except Unit (List Char)) (oracle : Nat → Bool)
    (st : GenSt) (t : List Char) (ht : t ≠ []) :
    (boundaryDetected (st.buffer ++ t) = false →
      (feedTok first subseq synth oracle st t).st.sentCount = st.sentCount ∧
      (feedTok first subseq synth oracle st t).counts = []) ∧
    (boundaryDetected (st.buffer ++ t) = true →
      (feedTok first subseq synth oracle st t).st.sentCount = st.sentCount + 1 ∨
      ((feedTok first subseq synth oracle st t).st.sentCount = 0 ∧
        (feedTok first subseq synth oracle st t).counts = [st.sentCount + 1])) ∧
    (∀ b, boundaryDetected b = true → boundarySpec b = true) := by
  refine ⟨fun hb => ?_, fun hb => ?_, fun b hb => ?_⟩
  · simp only [feedTok, if_neg ht, hb]
    simp
  · simp only [feedTok, if_neg ht, hb, if_true]
    repeat' split
    all_goals first
      | exact Or.inl rfl
      | exact Or.inr ⟨rfl, rfl⟩
  · obtain ⟨c, hlast, hc, hlen⟩ := boundary_parts hb
    have hmem : c ∈ sentence_enders := by simpa using hc
    simp only [boundarySpec, hlast]
    have hne : ¬(rstrip b).isEmpty := by
      rw [List.isEmpty_iff]
      intro hnil
      rw [hnil] at hlen
      simp at hlen
    simp only [Bool.and_eq_true, Bool.not_eq_true', decide_eq_true_eq]
    refine ⟨⟨by simpa using hne, ?_⟩, hlen⟩
    simp only [sentence_enders, List.mem_cons, List.mem_singleton] at hmem
    rcases hmem with rfl | rfl | rfl | hx
    · decide
    · decide
    · decide
    · simp at hx

/-- C8 counterexample: a buffer ending in the Unicode ellipsis character
with ample preceding content is a sentence-terminating boundary by the
spec's description, yet the code detects no boundary there and does not
count a sentence. -/
theorem chunker_boundary_ellipsis_counterexample :
    boundarySpec "Wait for it to happen…".data = true ∧
    boundaryDetected "Wait for it to happen…".data = false ∧
    (feedTok 1 2 synthOk oracleFalse genInit "Wait for it to happen…".data).st.sentCount = 0 := by
  exact ⟨by decide, by decide, by decide⟩

/-- C8 witness: the amended theorem applied to a concrete token carrying a
detected boundary. -/
theorem chunker_boundary_counting_witness :
    ("This is a sentence.".data ≠ ([] : List Char)) ∧
    ((boundaryDetected (genInit.buffer ++ "This is a sentence.".data) = false →
      (feedTok 1 2 synthOk oracleFalse genInit "This is a sentence.".data).st.sentCount =
        genInit.sentCount ∧
      (feedTok 1 2 synthOk oracleFalse genInit "This is a sentence.".data).counts = []) ∧
    (boundaryDetected (genInit.buffer ++ "This is a sentence.".data) = true →
      (feedTok 1 2 synthOk oracleFalse genInit "This is a sentence.".data).st.sentCount =
        genInit.sentCount + 1 ∨
      ((feedTok 1 2 synthOk oracleFalse genInit "This is a sentence.".data).st.sentCount = 0 ∧
        (feedTok 1 2 synthOk oracleFalse genInit "This is a sentence.".data).counts =
          [genInit.sentCount + 1])) ∧
    (∀ b, boundaryDetected b = true → boundarySpec b = true)) :=
  ⟨by decide, chunker_boundary_counting 1 2 synthOk oracleFalse genInit _ (by decide)⟩

/-! ## Lemmas about the in-memory TTS cache -/

theorem cacheLookup_cons (p : List Char × CacheEntry) (c : TTSCache) (k : List Char) :
    cacheLookup (p :: c) k = if p.1 = k then some p.2 else cacheLookup c k := by
  by_cases h : p.1 = k
  · simp [cacheLookup, List.find?_cons_of_pos, h]
  · simp [cacheLookup, List.find?_cons_of_neg, h]

theorem lookup_map_update {c : TTSCache} {k : List Char} (e : CacheEntry)
    (h : ∃ q ∈ c, q.1 = k) :
    cacheLookup (c.map fun p => if p.1 = k then (k, e) else p) k = some e := by
  induction c with
  | nil => exact absurd h.choose_spec.1 (List.not_mem_nil _)
  | cons p rest ih =>
      rw [List.map_cons]
      by_cases hpk : p.1 = k
      · rw [if_pos hpk, cacheLookup_cons]; simp
      · rw [if_neg hpk, cacheLookup_cons, if_neg hpk]
        apply ih
        rcases h with ⟨q, hq, hqk⟩
        rcases List.mem_cons.1 hq with rfl | hq2
        · exact absurd hqk hpk
        · exact ⟨q, hq2, hqk⟩

theorem lookup_append_new {c : TTSCache} {k : List Char} (e : CacheEntry)
    (h : ∀ q ∈ c, q.1 ≠ k) :
    cacheLookup (c ++ [(k, e)]) k = some e := by
  induction c with
  | nil => simp [cacheLookup_cons]
  | cons p rest ih =>
      rw [List.cons_append, cacheLookup_cons, if_neg (h p (List.mem_cons_self p rest))]
      exact ih fun q hq => h q (List.mem_cons_of_mem p hq)

theorem cacheLookup_dictInsert_self (c : TTSCache) (k : List Char) (e : CacheEntry) :
    cacheLookup (dictInsert c k e) k = some e := by
  unfold dictInsert
  split
  next hf =>
    apply lookup_map_update
    rw [List.find?_isSome] at hf
    rcases hf with ⟨q, hq, hqk⟩
    exact ⟨q, hq, by simpa using hqk⟩
  next hf =>
    apply lookup_append_new
    intro q hq hqk
    apply hf
    rw [List.find?_isSome]
    exact ⟨q, hq, by simpa using hqk⟩

theorem set_tts_cache_lookup (c : TTSCache) (k a : List Char) (max_size now : Nat) :
    cacheLookup (set_tts_cache c k a max_size now) k = some ⟨a, now⟩ :=
  cacheLookup_dictInsert_self _ k ⟨a, now⟩

theorem get_after_set (c : TTSCache) (k a : List Char) (max_size now now' : Nat) :
    (get_tts_cache (set_tts_cache c k a max_size now) k now').1 = some a := by
  simp [get_tts_cache, set_tts_cache_lookup]

theorem get_after_put (c : TTSCache) (t v m a : List Char) (max_size now now' : Nat) :
    (get_cached_tts (store_tts_cache c t v m a max_size now) t v m now').1 = some a :=
  get_after_set c (get_tts_cache_key t v m) a max_size now now'

theorem cacheLookup_none_of_not_mem {c : TTSCache} {k : List Char}
    (h : ∀ q ∈ c, q.1 ≠ k) : cacheLookup c k = none := by
  induction c with
  | nil => rfl
  | cons p rest ih =>
      rw [cacheLookup_cons, if_neg (h p (List.mem_cons_self p rest))]
      exact ih fun q hq => h q (List.mem_cons_of_mem p hq)

theorem cacheLookup_mem {c : TTSCache} {k : List Char} {e : CacheEntry}
    (h : cacheLookup c k = some e) : (k, e) ∈ c := by
  unfold cacheLookup at h
  cases hf : c.find? fun p => decide (p.1 = k) with
  | none => rw [hf] at h; simp at h
  | some pr =>
      rw [hf] at h
      simp only [Option.map_some'] at h
      have hmem := List.mem_of_find?_eq_some hf
      have hpred := List.find?_some hf
      simp only [decide_eq_true_eq] at hpred
      cases pr with
      | mk k2 e2 =>
          cases hpred
          cases h
          exact hmem

theorem minByLU_cons (p q : List Char × CacheEntry) (rest : TTSCache) :
    minByLU p (q :: rest) = minByLU (if q.2.last_used < p.2.last_used then q else p) rest := rfl

theorem minByLU_mem (rest : TTSCache) (p : List Char × CacheEntry) :
    minByLU p rest ∈ p :: rest := by
  induction rest generalizing p with
  | nil => simp [minByLU]
  | cons q rest ih =>
      rw [minByLU_cons]
      by_cases h : q.2.last_used < p.2.last_used
      · rw [if_pos h]
        rcases List.mem_cons.1 (ih q) with h2 | h2
        · rw [h2]; exact List.mem_cons_of_mem p (List.mem_cons_self q rest)
        · exact List.mem_cons_of_mem p (List.mem_cons_of_mem q h2)
      · rw [if_neg h]
        rcases List.mem_cons.1 (ih p) with h2 | h2
        · rw [h2]; exact List.mem_cons_self p (q :: rest)
        · exact List.mem_cons_of_mem p (List.mem_cons_of_mem q h2)

theorem minByLU_le_acc (rest : TTSCache) (p : List Char × CacheEntry) :
    (minByLU p rest).2.last_used ≤ p.2.last_used := by
  induction rest generalizing p with
  | nil => simp [minByLU]
  | cons r rest ih =>
      rw [minByLU_cons]
      have h2 := ih (if r.2.last_used < p.2.last_used then r else p)
      have haccp : (if r.2.last_used < p.2.last_used then r else p).2.last_used ≤
          p.2.last_used := by split <;> omega
      omega

theorem minByLU_le (rest : TTSCache) (p q : List Char × CacheEntry) (hq : q ∈ p :: rest) :
    (minByLU p rest).2.last_used ≤ q.2.last_used := by
  induction rest generalizing p with
  | nil =>
      rcases List.mem_cons.1 hq with h2 | h2
      · rw [h2]; simp [minByLU]
      · simp at h2
  | cons r rest ih =>
      rw [minByLU_cons]
      have h4 := minByLU_le_acc rest (if r.2.last_used < p.2.last_used then r else p)
      have haccp : (if r.2.last_used < p.2.last_used then r else p).2.last_used ≤
          p.2.last_used := by split <;> omega
      have haccr : (if r.2.last_used < p.2.last_used then r else p).2.last_used ≤
          r.2.last_used := by split <;> omega
      rcases List.mem_cons.1 hq with h2 | h2
      · rw [h2]; omega
      · rcases List.mem_cons.1 h2 with h3 | h3
        · rw [h3]; omega
        · exact ih _ (List.mem_cons_of_mem _ h3)

theorem delKey_length {c : TTSCache} {k : List Char} (h : ∃ q ∈ c, q.1 = k) :
    (delKey c k).length = c.length - 1 := by
  induction c with
  | nil => exact absurd h.choose_spec.1 (List.not_mem_nil _)
  | cons p rest ih =>
      unfold delKey
      by_cases hpk : p.1 = k
      · rw [if_pos hpk]; simp
      · rw [if_neg hpk]
        rcases h with ⟨q, hq, hqk⟩
        rcases List.mem_cons.1 hq with rfl | hq2
        · exact absurd hqk hpk
        · have hlen := ih ⟨q, hq2, hqk⟩
          have hpos : 1 ≤ rest.length := List.length_pos.2 (List.ne_nil_of_mem hq2)
          simp only [List.length_cons, hlen]
          omega

theorem mem_delKey {c : TTSCache} {k : List Char} {p : List Char × CacheEntry}
    (h : p ∈ delKey c k) : p ∈ c := by
  induction c with
  | nil => simp [delKey] at h
  | cons q rest ih =>
      unfold delKey at h
      split at h
      · exact List.mem_cons_of_mem q h
      · rcases List.mem_cons.1 h with rfl | h2
        · exact List.mem_cons_self p rest
        · exact List.mem_cons_of_mem q (ih h2)

theorem dictInsert_length_le (c : TTSCache) (k : List Char) (e : CacheEntry) :
    (dictInsert c k e).length ≤ c.length + 1 := by
  unfold dictInsert
  split
  · simp
  · simp

theorem set_tts_cache_cons_full {p : List Char × CacheEntry} {rest : TTSCache}
    {k a : List Char} {max_size now : Nat} (hfull : max_size ≤ (p :: rest).length) :
    set_tts_cache (p :: rest) k a max_size now =
      dictInsert (delKey (p :: rest) (minByLU p rest).1) k ⟨a, now⟩ := by
  simp only [set_tts_cache]
  rw [if_pos hfull]

theorem set_tts_cache_nonfull {c : TTSCache} {k a : List Char} {max_size now : Nat}
    (hsmall : c.length < max_size) :
    set_tts_cache c k a max_size now = dictInsert c k ⟨a, now⟩ := by
  simp only [set_tts_cache]
  rw [if_neg (by omega)]

theorem set_tts_cache_length {c : TTSCache} {k a : List Char} {max_size now : Nat}
    (hmax : 1 ≤ max_size) (hc : c.length ≤ max_size) :
    (set_tts_cache c k a max_size now).length ≤ max_size := by
  by_cases hfull : max_size ≤ c.length
  · cases c with
    | nil => simp at hfull; omega
    | cons p rest =>
        rw [set_tts_cache_cons_full hfull]
        have hmem := minByLU_mem rest p
        have hlen := delKey_length (c := p :: rest) ⟨minByLU p rest, hmem, rfl⟩
        have hd := dictInsert_length_le (delKey (p :: rest) (minByLU p rest).1) k ⟨a, now⟩
        have hpos : 1 ≤ (p :: rest).length := by simp
        omega
  · rw [set_tts_cache_nonfull (by omega)]
    have hd := dictInsert_length_le c k ⟨a, now⟩
    omega

theorem get_tts_cache_length (c : TTSCache) (k : List Char) (now : Nat) :
    (get_tts_cache c k now).2.length = c.length := by
  unfold get_tts_cache
  split <;> simp

theorem runTtsOps_length {max_size : Nat} (hmax : 1 ≤ max_size) :
    ∀ ops (c : TTSCache), c.length ≤ max_size → (runTtsOps max_size c ops).length ≤ max_size := by
  intro ops
  induction ops with
  | nil => intro c hc; exact hc
  | cons op rest ih =>
      intro c hc
      cases op with
      | put t v m a now => exact ih _ (set_tts_cache_length hmax hc)
      | get t v m now =>
          refine ih _ ?_
          show (get_tts_cache c (get_tts_cache_key t v m) now).2.length ≤ max_size
          rw [get_tts_cache_length]
          exact hc

theorem cacheLookup_map_touch (c : TTSCache) (k : List Char) (now : Nat) :
    cacheLookup (c.map fun p => if p.1 = k then (p.1, {p.2 with last_used := now}) else p) k =
      (cacheLookup c k).map fun e => {e with last_used := now} := by
  induction c with
  | nil => rfl
  | cons p rest ih =>
      rw [List.map_cons]
      by_cases hpk : p.1 = k
      · rw [if_pos hpk, cacheLookup_cons, cacheLookup_cons, if_pos hpk, if_pos hpk]
        rfl
      · rw [if_neg hpk, cacheLookup_cons, cacheLookup_cons, if_neg hpk, if_neg hpk, ih]

theorem get_refresh (c : TTSCache) (k : List Char) (now : Nat) :
    cacheLookup (get_tts_cache c k now).2 k =
      (cacheLookup c k).map fun e => {e with last_used := now} := by
  unfold get_tts_cache
  cases hl : cacheLookup c k with
  | none => simp [hl]
  | some e => simp only [cacheLookup_map_touch, hl]

theorem mem_touch {c : TTSCache} {k : List Char} {now : Nat} {p : List Char × CacheEntry}
    (h : p ∈ (get_tts_cache c k now).2) :
    ∃ q ∈ c, q.1 = p.1 ∧ q.2.audio_b64 = p.2.audio_b64 := by
  unfold get_tts_cache at h
  split at h
  · rcases List.mem_map.1 h with ⟨q, hq, hqe⟩
    by_cases hqk : q.1 = k
    · rw [if_pos hqk] at hqe
      exact ⟨q, hq, by rw [← hqe], by rw [← hqe]⟩
    · rw [if_neg hqk] at hqe
      exact ⟨q, hq, by rw [hqe], by rw [hqe]⟩
  · exact ⟨p, h, rfl, rfl⟩

theorem mem_dictInsert {c : TTSCache} {k : List Char} {e : CacheEntry}
    {p : List Char × CacheEntry} (h : p ∈ dictInsert c k e) : p ∈ c ∨ p = (k, e) := by
  unfold dictInsert at h
  split at h
  · rcases List.mem_map.1 h with ⟨q, hq, hqe⟩
    by_cases hqk : q.1 = k
    · rw [if_pos hqk] at hqe
      exact Or.inr hqe.symm
    · rw [if_neg hqk] at hqe
      exact Or.inl (hqe ▸ hq)
  · rcases List.mem_append.1 h with h1 | h1
    · exact Or.inl h1
    · simp only [List.mem_singleton] at h1
      exact Or.inr h1

theorem mem_set_tts_cache {c : TTSCache} {k a : List Char} {max_size now : Nat}
    {p : List Char × CacheEntry} (h : p ∈ set_tts_cache c k a max_size now) :
    p ∈ c ∨ p = (k, ⟨a, now⟩) := by
  unfold set_tts_cache at h
  rcases mem_dictInsert h with h1 | h1
  · left
    revert h1
    split
    · split
      · intro h1; simp at h1
      · exact fun h1 => mem_delKey h1
    · exact id
  · exact Or.inr h1

theorem runTtsOps_prov {max_size : Nat} :
    ∀ ops (c : TTSCache) (p : List Char × CacheEntry), p ∈ runTtsOps max_size c ops →
      (∃ q ∈ c, q.1 = p.1 ∧ q.2.audio_b64 = p.2.audio_b64) ∨ ProvOf ops p := by
  intro ops
  induction ops with
  | nil => intro c p h; exact Or.inl ⟨p, h, rfl, rfl⟩
  | cons op rest ih =>
      intro c p h
      cases op with
      | put t v m a now =>
          rcases ih _ p h with ⟨q, hq, hq1, hq2⟩ | hprov
          · rcases mem_set_tts_cache hq with hq3 | hq3
            · exact Or.inl ⟨q, hq3, hq1, hq2⟩
            · right
              refine ⟨t, v, m, now, ?_, ?_⟩
              · have ha : p.2.audio_b64 = a := by rw [← hq2, hq3]
                rw [ha]
                exact List.mem_cons_self _ rest
              · rw [← hq1, hq3]
          · right
            rcases hprov with ⟨t2, v2, m2, now2, hmem, hkey⟩
            exact ⟨t2, v2, m2, now2, List.mem_cons_of_mem _ hmem, hkey⟩
      | get t v m now =>
          rcases ih _ p h with ⟨q, hq, hq1, hq2⟩ | hprov
          · rcases mem_touch hq with ⟨q2, hq2m, hq21, hq22⟩
            · exact Or.inl ⟨q2, hq2m, by rw [hq21, hq1], by rw [hq22, hq2]⟩
          · right
            rcases hprov with ⟨t2, v2, m2, now2, hmem, hkey⟩
            exact ⟨t2, v2, m2, now2, List.mem_cons_of_mem _ hmem, hkey⟩

/-! ## C6 — synthesis cache keying -/

/-- C6 (amended): the synthesis cache behaves as a partial map keyed by the
derived key `md5(text + "|" + voice + "|" + mode)` rather than by the
triple itself: a `get` immediately following a `put` of the same triple
hits and returns the identical payload; triples whose raw serializations
coincide are identified; a `get` whose derived key is absent misses and
leaves the cache unchanged; and any audio returned by a `get` was stored
by some `put` whose triple derives the same key (but possibly differs as a
triple, e.g. by shifting a `|` between text and voice). -/
theorem tts_cache_keyed_by_derived_key (max_size : Nat) (hmax : 1 ≤ max_size) :
    (∀ (c : TTSCache) (text voice mode audio : List Char) (now now' : Nat),
      (get_cached_tts (store_tts_cache c text voice mode audio max_size now)
        text voice mode now').1 = some audio) ∧
    (∀ t v m t2 v2 m2 : List Char,
      t ++ '|' :: v ++ '|' :: m = t2 ++ '|' :: v2 ++ '|' :: m2 →
      get_tts_cache_key t v m = get_tts_cache_key t2 v2 m2) ∧
    (∀ (c : TTSCache) (k : List Char) (now : Nat), (∀ q ∈ c, q.1 ≠ k) →
      get_tts_cache c k now = (none, c)) ∧
    (∀ (ops : List TtsOp) (t v m a : List Char) (now : Nat),
      (get_cached_tts (runTtsOps max_size [] ops) t v m now).1 = some a →
      ∃ t2 v2 m2 now2, TtsOp.put t2 v2 m2 a now2 ∈ ops ∧
        get_tts_cache_key t2 v2 m2 = get_tts_cache_key t v m) := by
  refine ⟨fun c t v m a now now' => get_after_put c t v m a max_size now now',
    fun t v m t2 v2 m2 hraw => by unfold get_tts_cache_key; rw [hraw],
    fun c k now hk => by unfold get_tts_cache; rw [cacheLookup_none_of_not_mem hk],
    fun ops t v m a now hget => ?_⟩
  unfold get_cached_tts get_tts_cache at hget
  revert hget
  cases hl : cacheLookup (runTtsOps max_size [] ops) (get_tts_cache_key t v m) with
  | none => intro hget; simp at hget
  | some e =>
      intro hget
      simp only [Option.some.injEq] at hget
      have hmem := cacheLookup_mem hl
      rcases runTtsOps_prov ops [] _ hmem with ⟨q, hq, _, _⟩ | hprov
      · simp at hq
      · rcases hprov with ⟨t2, v2, m2, now2, hput, hkey⟩
        exact ⟨t2, v2, m2, now2, hget ▸ hput, hkey⟩

/-- C6 counterexample: after storing audio under the triple
`("a|b", "c", "m")`, a `get` with the distinct, never-stored triple
`("a", "b|c", "m")` hits and returns that audio, because both serialize to
the raw string `a|b|c|m`. -/
theorem tts_cache_cross_triple_hit :
    (get_cached_tts (store_tts_cache [] "a|b".data "c".data "m".data "AUDIO".data
        TTS_CACHE_MAX_SIZE 0) "a".data "b|c".data "m".data 1).1 = some "AUDIO".data ∧
    ("a|b".data, "c".data) ≠ ("a".data, "b|c".data) := by
  constructor
  · have hkey : get_tts_cache_key "a".data "b|c".data "m".data =
        get_tts_cache_key "a|b".data "c".data "m".data := rfl
    show (get_tts_cache _ (get_tts_cache_key "a".data "b|c".data "m".data) 1).1 = _
    rw [hkey]
    exact get_after_set [] _ "AUDIO".data TTS_CACHE_MAX_SIZE 0 1
  · decide

/-- C6 witness: the amended theorem applied to the default capacity and a
concrete put/get pair. -/
theorem tts_cache_keyed_witness :
    (1 ≤ TTS_CACHE_MAX_SIZE) ∧
    (get_cached_tts (store_tts_cache [] "hello".data "marin".data "interview".data
        "AAA".data TTS_CACHE_MAX_SIZE 0) "hello".data "marin".data "interview".data 1).1 =
      some "AAA".data :=
  ⟨by decide,
    (tts_cache_keyed_by_derived_key TTS_CACHE_MAX_SIZE (by decide)).1 [] _ _ _ _ 0 1⟩

/-! ## C7 — cache size bound and LRU eviction -/

/-- C7: starting from an empty cache, any sequence of puts and gets leaves
at most `max_size` entries; an insertion at capacity evicts an entry whose
last-used timestamp is minimal at that moment; and a hit refreshes the
entry's last-used timestamp. -/
theorem tts_cache_lru_bound (max_size : Nat) (hmax : 1 ≤ max_size) :
    (∀ ops, (runTtsOps max_size [] ops).length ≤ max_size) ∧
    (∀ (c : TTSCache) (k a : List Char) (now : Nat), max_size ≤ c.length → c ≠ [] →
      ∃ q ∈ c, (∀ r ∈ c, q.2.last_used ≤ r.2.last_used) ∧
        set_tts_cache c k a max_size now = dictInsert (delKey c q.1) k ⟨a, now⟩) ∧
    (∀ (c : TTSCache) (k : List Char) (now : Nat),
      cacheLookup (get_tts_cache c k now).2 k =
        (cacheLookup c k).map fun e => {e with last_used := now}) := by
  refine ⟨fun ops => runTtsOps_length hmax ops [] (by simp),
    fun c k a now hfull hne => ?_, get_refresh⟩
  cases c with
  | nil => exact absurd rfl hne
  | cons p rest =>
      refine ⟨minByLU p rest, minByLU_mem rest p, fun r hr => minByLU_le rest p r hr, ?_⟩
      exact set_tts_cache_cons_full hfull

/-- C7 witness: the theorem applied to a capacity-2 cache: three puts stay
within bound, the eviction at capacity removes the oldest entry, and a hit
refreshes recency. -/
theorem tts_cache_lru_witness :
    (1 ≤ 2) ∧
    (runTtsOps 2 [] [.put "t1".data "v".data "m".data "a1".data 0,
        .put "t2".data "v".data "m".data "a2".data 1,
        .put "t3".data "v".data "m".data "a3".data 2]).length ≤ 2 ∧
    (∃ q ∈ ([(['k', '1'], ⟨['a', '1'], 5⟩), (['k', '2'], ⟨['a', '2'], 3⟩)] : TTSCache),
      (∀ r ∈ ([(['k', '1'], ⟨['a', '1'], 5⟩), (['k', '2'], ⟨['a', '2'], 3⟩)] : TTSCache),
        q.2.last_used ≤ r.2.last_used) ∧
      set_tts_cache [(['k', '1'], ⟨['a', '1'], 5⟩), (['k', '2'], ⟨['a', '2'], 3⟩)]
          ['k', '3'] ['a', '3'] 2 7 =
        dictInsert (delKey [(['k', '1'], ⟨['a', '1'], 5⟩), (['k', '2'], ⟨['a', '2'], 3⟩)] q.1)
          ['k', '3'] ⟨['a', '3'], 7⟩) ∧
    cacheLookup (get_tts_cache [(['k', '1'], ⟨['a', '1'], 5⟩)] ['k', '1'] 9).2 ['k', '1'] =
      (cacheLookup [(['k', '1'], ⟨['a', '1'], 5⟩)] ['k', '1']).map
        fun e => {e with last_used := 9} :=
  ⟨by decide, (tts_cache_lru_bound 2 (by decide)).1 _,
    (tts_cache_lru_bound 2 (by decide)).2.1 _ _ _ 7 (by decide) (by decide),
    (tts_cache_lru_bound 2 (by decide)).2.2 _ _ 9⟩

/-! ## Lemmas about the streaming turn without cancellation -/

@[simp]
theorem textsOf_append (a b : List Ev) : textsOf (a ++ b) = textsOf a ++ textsOf b :=
  List.filterMap_append a b _

@[simp]
theorem textsOf_readCancel_cons (b : Bool) (l : List Ev) :
    textsOf (Ev.readCancel b :: l) = textsOf l := rfl

@[simp]
theorem textsOf_readCancel_single (b : Bool) : textsOf [Ev.readCancel b] = [] := rfl

@[simp]
theorem textsOf_nil : textsOf [] = [] := rfl

@[simp]
theorem textsOf_textChunk_cons (t : List Char) (i : Nat) (l : List Ev) :
    textsOf (Ev.textChunk t i :: l) = t :: textsOf l := rfl

@[simp]
theorem textsOf_audioChunk_cons (a : List Char) (i : Nat) (l : List Ev) :
    textsOf (Ev.audioChunk a i :: l) = textsOf l := rfl

@[simp]
theorem textsOf_streamComplete_cons (f : List Char) (n : Nat) (l : List Ev) :
    textsOf (Ev.streamComplete f n :: l) = textsOf l := rfl

@[simp]
theorem textsOf_logError_cons (l : List Ev) : textsOf (Ev.logError :: l) = textsOf l := rfl

@[simp]
theorem textsOf_statusMsg_cons (m : List Char) (l : List Ev) :
    textsOf (Ev.statusMsg m :: l) = textsOf l := rfl

theorem flush_false_props (synth : List Char → Except Unit (List Char)) (st : GenSt)
    (text : List Char) (hne : strip text ≠ []) :
    textsOf (flush_tts_chunk synth oracleFalse st text).2 = [text] ∧
    (flush_tts_chunk synth oracleFalse st text).1.buffer = st.buffer ∧
    (flush_tts_chunk synth oracleFalse st text).1.fullText = st.fullText ∧
    (flush_tts_chunk synth oracleFalse st text).1.sentCount = st.sentCount ∧
    (flush_tts_chunk synth oracleFalse st text).1.firstChunkSent = true := by
  unfold flush_tts_chunk
  rw [if_neg hne]
  cases hsyn : synth text with
  | error e => simp [oracleFalse, textsOf]
  | ok audio => simp [oracleFalse, textsOf]

theorem feedTok_nil (first subseq : Nat) (synth : List Char → Except Unit (List Char))
    (oracle : Nat → Bool) (st : GenSt) :
    feedTok first subseq synth oracle st [] = ⟨st, [], false, []⟩ := by
  simp [feedTok]

theorem feedTok_noBoundary (first subseq : Nat) (synth : List Char → Except Unit (List Char))
    (oracle : Nat → Bool) (st : GenSt) (t : List Char) (ht : t ≠ [])
    (hb : boundaryDetected (st.buffer ++ t) = false) :
    feedTok first subseq synth oracle st t =
      ⟨⟨st.fullText ++ t, st.buffer ++ t, st.chunkIndex, st.sentCount, st.firstChunkSent,
        st.rc⟩, [], false, []⟩ := by
  simp [feedTok, ht, hb]

theorem feedTok_buffering (first subseq : Nat) (synth : List Char → Except Unit (List Char))
    (oracle : Nat → Bool) (st : GenSt) (t : List Char) (ht : t ≠ [])
    (hb : boundaryDetected (st.buffer ++ t) = true)
    (hn : ¬(if st.firstChunkSent then subseq else first) ≤ st.sentCount + 1) :
    feedTok first subseq synth oracle st t =
      ⟨⟨st.fullText ++ t, st.buffer ++ t, st.chunkIndex, st.sentCount + 1, st.firstChunkSent,
        st.rc⟩, [], false, []⟩ := by
  simp [feedTok, ht, hb, hn]

theorem feedTok_flush_false (first subseq : Nat) (synth : List Char → Except Unit (List Char))
    (st : GenSt) (t : List Char) (ht : t ≠ [])
    (hb : boundaryDetected (st.buffer ++ t) = true)
    (hn : (if st.firstChunkSent then subseq else first) ≤ st.sentCount + 1) :
    feedTok first subseq synth oracleFalse st t =
      ⟨⟨(flush_tts_chunk synth oracleFalse ⟨st.fullText ++ t, st.buffer ++ t, st.chunkIndex,
          st.sentCount + 1, st.firstChunkSent, st.rc + 1⟩ (strip (st.buffer ++ t))).1.fullText,
        [],
        (flush_tts_chunk synth oracleFalse ⟨st.fullText ++ t, st.buffer ++ t, st.chunkIndex,
          st.sentCount + 1, st.firstChunkSent, st.rc + 1⟩ (strip (st.buffer ++ t))).1.chunkIndex,
        0,
        (flush_tts_chunk synth oracleFalse ⟨st.fullText ++ t, st.buffer ++ t, st.chunkIndex,
          st.sentCount + 1, st.firstChunkSent, st.rc + 1⟩
            (strip (st.buffer ++ t))).1.firstChunkSent,
        (flush_tts_chunk synth oracleFalse ⟨st.fullText ++ t, st.buffer ++ t, st.chunkIndex,
          st.sentCount + 1, st.firstChunkSent, st.rc + 1⟩ (strip (st.buffer ++ t))).1.rc + 1⟩,
      Ev.readCancel false ::
        (flush_tts_chunk synth oracleFalse ⟨st.fullText ++ t, st.buffer ++ t, st.chunkIndex,
          st.sentCount + 1, st.firstChunkSent, st.rc + 1⟩ (strip (st.buffer ++ t))).2 ++
          [Ev.readCancel false],
      false, [st.sentCount + 1]⟩ := by
  simp [feedTok, ht, hb, hn, oracleFalse]

theorem feedTok_false_cases (first subseq : Nat) (synth : List Char → Except Unit (List Char))
    (st : GenSt) (t : List Char) :
    (feedTok first subseq synth oracleFalse st t).broke = false ∧
    (feedTok first subseq synth oracleFalse st t).st.fullText = st.fullText ++ t ∧
    (((feedTok first subseq synth oracleFalse st t).st.buffer = st.buffer ++ t ∧
        textsOf (feedTok first subseq synth oracleFalse st t).trace = []) ∨
      ((feedTok first subseq synth oracleFalse st t).st.buffer = [] ∧
        textsOf (feedTok first subseq synth oracleFalse st t).trace =
          [strip (st.buffer ++ t)])) := by
  by_cases ht : t = []
  · subst ht
    rw [feedTok_nil]
    exact ⟨rfl, by simp, Or.inl ⟨by simp, rfl⟩⟩
  · by_cases hb : boundaryDetected (st.buffer ++ t)
    · by_cases hn : (if st.firstChunkSent then subseq else first) ≤ st.sentCount + 1
      · rw [feedTok_flush_false first subseq synth st t ht hb hn]
        have hsne : strip (strip (st.buffer ++ t)) ≠ [] := by
          rw [strip_idem]
          exact strip_ne_nil_of_boundary hb
        obtain ⟨htx, hbuf, hful, hcnt, hfcs⟩ := flush_false_props synth
          ⟨st.fullText ++ t, st.buffer ++ t, st.chunkIndex, st.sentCount + 1,
            st.firstChunkSent, st.rc + 1⟩ (strip (st.buffer ++ t)) hsne
        refine ⟨rfl, ?_, Or.inr ⟨rfl, ?_⟩⟩
        · rw [hful]
        · simp [htx]
      · rw [feedTok_buffering first subseq synth oracleFalse st t ht hb hn]
        exact ⟨rfl, rfl, Or.inl ⟨rfl, rfl⟩⟩
    · rw [feedTok_noBoundary first subseq synth oracleFalse st t ht
        (Bool.not_eq_true _ ▸ hb)]
      exact ⟨rfl, rfl, Or.inl ⟨rfl, rfl⟩⟩

theorem runItems_concat (first subseq : Nat) (synth : List Char → Except Unit (List Char)) :
    ∀ (tokens : List (List Char)) (st : GenSt),
      ∃ segs : List (List Char),
        st.buffer ++ tokens.flatten =
          segs.flatten ++
            (runItems first subseq synth oracleFalse st (tokens.map .tok)).st.buffer ∧
        textsOf (runItems first subseq synth oracleFalse st (tokens.map .tok)).trace =
          segs.map strip ∧
        (runItems first subseq synth oracleFalse st (tokens.map .tok)).raised = false ∧
        (runItems first subseq synth oracleFalse st (tokens.map .tok)).st.fullText =
          st.fullText ++ tokens.flatten := by
  intro tokens
  induction tokens with
  | nil =>
      intro st
      exact ⟨[], by simp [runItems], by simp [runItems], by simp [runItems],
        by simp [runItems]⟩
  | cons t rest ih =>
      intro st
      obtain ⟨hbroke, hful, hcase⟩ :=
        feedTok_false_cases first subseq synth {st with rc := st.rc + 1} t
      obtain ⟨segs, hseg1, hseg2, hseg3, hseg4⟩ :=
        ih (feedTok first subseq synth oracleFalse {st with rc := st.rc + 1} t).st
      rcases hcase with ⟨hbuf, htx⟩ | ⟨hbuf, htx⟩
      · refine ⟨segs, ?_, ?_, ?_, ?_⟩
        · show st.buffer ++ (t ++ rest.flatten) = _
          rw [← List.append_assoc, ← hbuf]
          simpa [runItems, oracleFalse, hbroke] using hseg1
        · simp only [runItems, oracleFalse, Bool.false_eq_true, if_false, hbroke]
          simp [htx, hseg2]
        · simp [runItems, oracleFalse, hbroke, hseg3]
        · simp only [runItems, oracleFalse, Bool.false_eq_true, if_false, hbroke]
          show (runItems first subseq synth oracleFalse _ (rest.map .tok)).st.fullText = _
          rw [hseg4, hful]
          simp
      · refine ⟨(st.buffer ++ t) :: segs, ?_, ?_, ?_, ?_⟩
        · show st.buffer ++ (t ++ rest.flatten) = _
          rw [List.flatten_cons]
          simp only [runItems, oracleFalse, Bool.false_eq_true, if_false, hbroke]
          rw [List.append_assoc]
          show _ = (st.buffer ++ t) ++ (segs.flatten ++ _)
          rw [← List.append_assoc]
          congr 1
          rw [← hseg1, hbuf]
          simp
        · simp only [runItems, oracleFalse, Bool.false_eq_true, if_false, hbroke]
          simp [htx, hseg2]
        · simp [runItems, oracleFalse, hbroke, hseg3]
        · simp only [runItems, oracleFalse, Bool.false_eq_true, if_false, hbroke]
          show (runItems first subseq synth oracleFalse _ (rest.map .tok)).st.fullText = _
          rw [hseg4, hful]
          simp

theorem postLoop_false_texts (synth : List Char → Except Unit (List Char)) (st : GenSt) :
    textsOf (postLoop synth oracleFalse st).2 =
      if strip st.buffer = [] then [] else [strip st.buffer] := by
  unfold postLoop
  by_cases h : strip st.buffer = []
  · rw [if_pos h, if_pos h]
    simp [oracleFalse, textsOf]
  · rw [if_neg h, if_neg h]
    have hsne : strip (strip st.buffer) ≠ [] := by rw [strip_idem]; exact h
    obtain ⟨htx, _, _, _, _⟩ := flush_false_props synth {st with rc := st.rc + 1}
      (strip st.buffer) hsne
    simp [oracleFalse, htx]

theorem flush_preserves (synth : List Char → Except Unit (List Char)) (oracle : Nat → Bool)
    (st : GenSt) (text : List Char) :
    (flush_tts_chunk synth oracle st text).1.fullText = st.fullText ∧
    (flush_tts_chunk synth oracle st text).1.buffer = st.buffer ∧
    (flush_tts_chunk synth oracle st text).1.sentCount = st.sentCount := by
  refine ⟨?_, ?_, ?_⟩ <;>
    (simp only [flush_tts_chunk]
     repeat' split
     all_goals rfl)

theorem postLoop_fullText (synth : List Char → Except Unit (List Char)) (oracle : Nat → Bool)
    (st : GenSt) : (postLoop synth oracle st).1.fullText = st.fullText := by
  simp only [postLoop]
  repeat' split
  all_goals simp [(flush_preserves _ _ _ _).1]

/-! ## C1 — chunk concatenation -/

/-- C1 (amended): concatenating the chunks a turn emits (the final flush
included) reproduces the streamed text only up to the whitespace removed
by `.strip()` at chunk boundaries: the streamed text splits into
consecutive segments, each emitted chunk is its segment with leading and
trailing whitespace stripped, and a whitespace-only remainder at end of
stream is dropped; characters are never duplicated or reordered, and the
accumulated `full_text` equals the streamed text exactly.  Byte-for-byte
equality of the chunk concatenation fails when whitespace borders a chunk
boundary. -/
theorem chunker_concat (first subseq : Nat) (synth : List Char → Except Unit (List Char))
    (tokens : List (List Char)) :
    ∃ (segs : List (List Char)) (rest : List Char),
      tokens.flatten = segs.flatten ++ rest ∧
      textsOf (processTurn first subseq synth oracleFalse (tokens.map .tok)).trace =
        segs.map strip ++ (if rest.all isPyWs then [] else [strip rest]) ∧
      (processTurn first subseq synth oracleFalse (tokens.map .tok)).st.fullText =
        tokens.flatten := by
  obtain ⟨segs, hseg1, hseg2, hseg3, hseg4⟩ := runItems_concat first subseq synth tokens genInit
  have hpt1 : (processTurn first subseq synth oracleFalse (tokens.map .tok)).trace =
      (runItems first subseq synth oracleFalse genInit (tokens.map .tok)).trace ++
        (postLoop synth oracleFalse
          (runItems first subseq synth oracleFalse genInit (tokens.map .tok)).st).2 := by
    simp only [processTurn, stream_chat_and_speak, hseg3, Bool.false_eq_true, if_false]
  have hpt2 : (processTurn first subseq synth oracleFalse (tokens.map .tok)).st =
      (postLoop synth oracleFalse
        (runItems first subseq synth oracleFalse genInit (tokens.map .tok)).st).1 := by
    simp only [processTurn, stream_chat_and_speak, hseg3, Bool.false_eq_true, if_false]
  refine ⟨segs, (runItems first subseq synth oracleFalse genInit (tokens.map .tok)).st.buffer,
    ?_, ?_, ?_⟩
  · simpa [genInit] using hseg1
  · rw [hpt1, textsOf_append, hseg2, postLoop_false_texts]
    congr 1
    by_cases hws :
        ((runItems first subseq synth oracleFalse genInit (tokens.map .tok)).st.buffer).all
          isPyWs
    · rw [if_pos (strip_eq_nil_iff.2 hws), if_pos hws]
    · rw [if_neg (fun hc => hws (strip_eq_nil_iff.1 hc)), if_neg hws]
  · rw [hpt2, postLoop_fullText, hseg4]
    simp [genInit]

/-- C1 counterexample: with the stream `["This is a test. ", "more"]` the
first chunk's trailing space is stripped, so the concatenation of the
emitted chunks is not byte-for-byte the streamed text. -/
theorem chunker_concat_counterexample :
    (textsOf (processTurn 1 2 synthOk oracleFalse
        [StreamItem.tok "This is a test. ".data, StreamItem.tok "more".data]).trace).flatten ≠
      (["This is a test. ".data, "more".data] : List (List Char)).flatten ∧
    textsOf (processTurn 1 2 synthOk oracleFalse
        [StreamItem.tok "This is a test. ".data, StreamItem.tok "more".data]).trace =
      ["This is a test.".data, "more".data] := by
  constructor
  · decide
  · decide

/-! ## C4 — chunk sizing policy -/

theorem countsPattern_length (first subseq : Nat) :
    ∀ (n : Nat) (fcs : Bool), (countsPattern first subseq fcs n).length = n := by
  intro n
  induction n with
  | zero => intro fcs; rfl
  | succ n ih => intro fcs; simp [countsPattern, ih]

theorem countsPattern_succ (first subseq : Nat) (fcs : Bool) (n : Nat) :
    countsPattern first subseq fcs (n + 1) =
      (if fcs then subseq else first) :: countsPattern first subseq true n := rfl

theorem feedTok_counts (first subseq : Nat) (synth : List Char → Except Unit (List Char))
    (st : GenSt) (t : List Char) (hs : 1 ≤ subseq)
    (hinv : st.sentCount < (if st.firstChunkSent then subseq else first)) :
    (feedTok first subseq synth oracleFalse st t).broke = false ∧
    (feedTok first subseq synth oracleFalse st t).st.sentCount <
      (if (feedTok first subseq synth oracleFalse st t).st.firstChunkSent then subseq
        else first) ∧
    (((feedTok first subseq synth oracleFalse st t).counts = [] ∧
        (textsOf (feedTok first subseq synth oracleFalse st t).trace).length = 0 ∧
        (feedTok first subseq synth oracleFalse st t).st.firstChunkSent = st.firstChunkSent) ∨
      ((feedTok first subseq synth oracleFalse st t).counts =
          [if st.firstChunkSent then subseq else first] ∧
        (textsOf (feedTok first subseq synth oracleFalse st t).trace).length = 1 ∧
        (feedTok first subseq synth oracleFalse st t).st.firstChunkSent = true)) := by
  by_cases ht : t = []
  · subst ht
    rw [feedTok_nil]
    exact ⟨rfl, hinv, Or.inl ⟨rfl, rfl, rfl⟩⟩
  · by_cases hb : boundaryDetected (st.buffer ++ t)
    · by_cases hn : (if st.firstChunkSent then subseq else first) ≤ st.sentCount + 1
      · rw [feedTok_flush_false first subseq synth st t ht hb hn]
        have hsne : strip (strip (st.buffer ++ t)) ≠ [] := by
          rw [strip_idem]
          exact strip_ne_nil_of_boundary hb
        obtain ⟨htx, hbuf, hful, hcnt, hfcs⟩ := flush_false_props synth
          ⟨st.fullText ++ t, st.buffer ++ t, st.chunkIndex, st.sentCount + 1,
            st.firstChunkSent, st.rc + 1⟩ (strip (st.buffer ++ t)) hsne
        refine ⟨rfl, ?_, Or.inr ⟨?_, ?_, ?_⟩⟩
        · show 0 < if (flush_tts_chunk synth oracleFalse _ _).1.firstChunkSent then subseq
            else first
          rw [hfcs]
          simpa using hs
        · have : st.sentCount + 1 = if st.firstChunkSent then subseq else first := by omega
          rw [this]
        · simp [htx]
        · exact hfcs
      · rw [feedTok_buffering first subseq synth oracleFalse st t ht hb hn]
        exact ⟨rfl, by simp only []; omega, Or.inl ⟨rfl, rfl, rfl⟩⟩
    · rw [feedTok_noBoundary first subseq synth oracleFalse st t ht (Bool.not_eq_true _ ▸ hb)]
      exact ⟨rfl, by simpa using hinv, Or.inl ⟨rfl, rfl, rfl⟩⟩

theorem runItems_counts (first subseq : Nat) (synth : List Char → Except Unit (List Char))
    (hs : 1 ≤ subseq) :
    ∀ (tokens : List (List Char)) (st : GenSt),
      st.sentCount < (if st.firstChunkSent then subseq else first) →
      (runItems first subseq synth oracleFalse st (tokens.map .tok)).counts =
        countsPattern first subseq st.firstChunkSent
          (runItems first subseq synth oracleFalse st (tokens.map .tok)).counts.length ∧
      (textsOf (runItems first subseq synth oracleFalse st (tokens.map .tok)).trace).length =
        (runItems first subseq synth oracleFalse st (tokens.map .tok)).counts.length := by
  intro tokens
  induction tokens with
  | nil =>
      intro st hinv
      simp [runItems, countsPattern]
  | cons t rest ih =>
      intro st hinv
      rw [List.map_cons]
      simp only [runItems, oracleFalse, Bool.false_eq_true, if_false]
      obtain ⟨hbroke, hinv2, hcase⟩ := feedTok_counts first subseq synth
        {st with rc := st.rc + 1} t hs (by simpa using hinv)
      rw [hbroke]
      simp only [Bool.false_eq_true, if_false]
      obtain ⟨hih1, hih2⟩ := ih (feedTok first subseq synth oracleFalse
        {st with rc := st.rc + 1} t).st hinv2
      rcases hcase with ⟨hc, htl, hfc⟩ | ⟨hc, htl, hfc⟩
      · constructor
        · simp only [hc, List.nil_append]
          rw [hih1, hfc]
          simp [countsPattern_length]
        · simp only [hc, List.nil_append, textsOf_readCancel_cons, textsOf_append,
            List.length_append, htl, hih2]
          simp
      · constructor
        · simp only [hc, List.cons_append, List.nil_append, List.length_cons]
          rw [hih1, hfc]
          simp [countsPattern_succ, countsPattern_length]
        · simp only [hc, textsOf_readCancel_cons, textsOf_append, List.length_append, htl,
            hih2]
          simp

/-- C4: for a turn processed without cancellation, the chunks flushed from
the token loop are released exactly when the buffer's accumulated sentence
count reaches `first` for the first chunk of the turn and `subseq` for
every later chunk (the ghost flush counts equal the spec's sizing
pattern); each flush emits exactly one text chunk; any text still buffered
at end of stream is emitted as a final chunk regardless of its sentence
count; and the configured defaults are 1 first-chunk sentence and 2
subsequent-chunk sentences. -/
theorem chunk_sizing_policy (first subseq : Nat)
    (synth : List Char → Except Unit (List Char)) (tokens : List (List Char))
    (hf : 1 ≤ first) (hs : 1 ≤ subseq) :
    (runItems first subseq synth oracleFalse genInit (tokens.map .tok)).counts =
      countsPattern first subseq false
        (runItems first subseq synth oracleFalse genInit (tokens.map .tok)).counts.length ∧
    (textsOf (runItems first subseq synth oracleFalse genInit
        (tokens.map .tok)).trace).length =
      (runItems first subseq synth oracleFalse genInit (tokens.map .tok)).counts.length ∧
    (strip (runItems first subseq synth oracleFalse genInit
        (tokens.map .tok)).st.buffer ≠ [] →
      textsOf (postLoop synth oracleFalse
          (runItems first subseq synth oracleFalse genInit (tokens.map .tok)).st).2 =
        [strip (runItems first subseq synth oracleFalse genInit
          (tokens.map .tok)).st.buffer]) ∧
    STREAMING_FIRST_CHUNK_SENTENCES = 1 ∧ STREAMING_SUBSEQUENT_CHUNK_SENTENCES = 2 := by
  obtain ⟨h1, h2⟩ := runItems_counts first subseq synth hs tokens genInit
    (by simp [genInit]; omega)
  exact ⟨h1, h2, fun hne => by rw [postLoop_false_texts, if_neg hne], rfl, rfl⟩

/-- C4 witness: the sizing theorem applied to the default configuration
and a concrete four-token stream. -/
theorem chunk_sizing_policy_witness :
    (1 ≤ 1 ∧ 1 ≤ 2) ∧
    (runItems 1 2 synthOk oracleFalse genInit
        (["One two three. ".data, "Four five six. ".data, "Seven eight nine. ".data,
          "End".data].map .tok)).counts =
      countsPattern 1 2 false
        (runItems 1 2 synthOk oracleFalse genInit
          (["One two three. ".data, "Four five six. ".data, "Seven eight nine. ".data,
            "End".data].map .tok)).counts.length :=
  ⟨⟨by decide, by decide⟩,
    (chunk_sizing_policy 1 2 synthOk _ (by decide) (by decide)).1⟩

/-! ## Lemmas about cancellation-clean traces -/

theorem noOutB_append {a b : List Ev} (ha : noOutB a = true) (hb : noOutB b = true) :
    noOutB (a ++ b) = true := by
  simp only [noOutB] at ha hb ⊢
  rw [List.all_append, ha, hb]
  rfl

theorem cancelClean_of_noOut : ∀ {tr : List Ev}, noOutB tr = true → cancelClean tr = true := by
  intro tr
  induction tr with
  | nil => intro h; rfl
  | cons e rest ih =>
      intro h
      have h2 : noOutB rest = true := by
        simp only [noOutB, List.all_cons, Bool.and_eq_true] at h
        exact h.2
      simp only [cancelClean, Bool.and_eq_true]
      refine ⟨?_, ih h2⟩
      split
      · exact h2
      · rfl

theorem cancelClean_append {a b : List Ev} (ha : cancelClean a = true)
    (hb : cancelClean b = true) (hmem : Ev.readCancel true ∈ a → noOutB b = true) :
    cancelClean (a ++ b) = true := by
  induction a with
  | nil => simpa using hb
  | cons e a' ih =>
      simp only [cancelClean, Bool.and_eq_true] at ha
      simp only [List.cons_append, cancelClean, Bool.and_eq_true]
      constructor
      · split
        next he =>
          rw [he] at ha
          have hb2 : noOutB b = true := hmem (by rw [he]; exact List.mem_cons_self _ _)
          have ha2 : noOutB a' = true := by simpa using ha.1
          exact noOutB_append ha2 hb2
        next he => rfl
      · exact ih ha.2 fun hm => hmem (List.mem_cons_of_mem e hm)

theorem Seg_append {oracle : Nat → Bool} {rc rc1 rc2 : Nat} {a b : List Ev}
    (ha : Seg oracle rc rc1 a) (hb : Seg oracle rc1 rc2 b) : Seg oracle rc rc2 (a ++ b) := by
  obtain ⟨ha1, ha2, ha3, ha4⟩ := ha
  obtain ⟨hb1, hb2, hb3, hb4⟩ := hb
  refine ⟨le_trans ha1 hb1, cancelClean_append ha2 hb2 fun hm => hb4 (ha3 hm), ?_, ?_⟩
  · intro hm
    rcases List.mem_append.1 hm with h1 | h1
    · obtain ⟨k, hk, hko⟩ := ha3 h1
      exact ⟨k, lt_of_lt_of_le hk hb1, hko⟩
    · exact hb3 h1
  · intro hseen
    have hseen1 : SeenTrue oracle rc1 := by
      obtain ⟨k, hk, hko⟩ := hseen
      exact ⟨k, lt_of_lt_of_le hk ha1, hko⟩
    exact noOutB_append (ha4 hseen) (hb4 hseen1)

theorem Seg_nil (oracle : Nat → Bool) (rc : Nat) : Seg oracle rc rc [] :=
  ⟨le_refl rc, rfl, by simp, fun _ => rfl⟩

theorem Seg_read (oracle : Nat → Bool) (rc : Nat) :
    Seg oracle rc (rc + 1) [Ev.readCancel (oracle rc)] := by
  refine ⟨Nat.le_succ rc, ?_, ?_, fun _ => rfl⟩
  · cases h : oracle rc <;> simp [cancelClean, noOutB, h]
  · intro hm
    simp only [List.mem_singleton, Ev.readCancel.injEq] at hm
    exact ⟨rc, Nat.lt_succ_self rc, hm.symm⟩

theorem Seg_noOut {oracle : Nat → Bool} {rc : Nat} {tr : List Ev}
    (h : noOutB tr = true) (hno : Ev.readCancel true ∉ tr) : Seg oracle rc rc tr :=
  ⟨le_refl rc, cancelClean_of_noOut h, fun hm => absurd hm hno, fun _ => h⟩

theorem flush_Seg (synth : List Char → Except Unit (List Char)) {oracle : Nat → Bool}
    (hmono : MonoOracle oracle) (st : GenSt) (text : List Char) :
    Seg oracle st.rc (flush_tts_chunk synth oracle st text).1.rc
      (flush_tts_chunk synth oracle st text).2 := by
  have hcontra : ∀ {b : Bool}, oracle st.rc = false → SeenTrue oracle st.rc → b = true := by
    intro b hfalse ⟨k, hk, hko⟩
    rw [hmono k st.rc (Nat.le_of_lt hk) hko] at hfalse
    exact absurd hfalse (by simp)
  simp only [flush_tts_chunk]
  split
  · exact Seg_nil oracle st.rc
  · split
    next h1 =>
      refine ⟨Nat.le_succ _, by simp [cancelClean, noOutB], ?_, fun _ => rfl⟩
      intro _
      exact ⟨st.rc, Nat.lt_succ_self _, h1⟩
    next h1 =>
      rw [Bool.not_eq_true] at h1
      split
      next h2 =>
        refine ⟨Nat.le_add_right st.rc 2, by simp [cancelClean, noOutB, isOutput], ?_,
          hcontra h1⟩
        intro _
        exact ⟨st.rc + 1, Nat.lt_succ_self (st.rc + 1), h2⟩
      next h2 =>
        rw [Bool.not_eq_true] at h2
        split
        next he =>
          refine ⟨Nat.le_add_right st.rc 2, by simp [cancelClean, noOutB, isOutput], ?_,
            hcontra h1⟩
          intro hm
          simp [List.mem_cons] at hm
        next audio he =>
          split
          next h3 =>
            refine ⟨Nat.le_add_right st.rc 3, by simp [cancelClean, noOutB, isOutput], ?_,
              hcontra h1⟩
            intro _
            exact ⟨st.rc + 2, Nat.lt_succ_self (st.rc + 2), h3⟩
          next h3 =>
            refine ⟨Nat.le_add_right st.rc 3, by simp [cancelClean, noOutB, isOutput], ?_,
              hcontra h1⟩
            intro hm
            simp [List.mem_cons] at hm

theorem Seg_read_true {oracle : Nat → Bool} {rc : Nat} (h : oracle rc = true) :
    Seg oracle rc (rc + 1) [Ev.readCancel true] := by
  have := Seg_read oracle rc
  rwa [h] at this

theorem Seg_read_false {oracle : Nat → Bool} {rc : Nat} (h : oracle rc = false) :
    Seg oracle rc (rc + 1) [Ev.readCancel false] := by
  have := Seg_read oracle rc
  rwa [h] at this

theorem Seg_cons_read_false {oracle : Nat → Bool} {rc rc2 : Nat} {tr : List Ev}
    (h : oracle rc = false) (htr : Seg oracle (rc + 1) rc2 tr) :
    Seg oracle rc rc2 (Ev.readCancel false :: tr) :=
  Seg_append (Seg_read_false h) htr

theorem Seg_read_true_now {oracle : Nat → Bool} {rc rc2 : Nat} (h : oracle rc = true)
    (hrc : rc2 = rc + 1) : Seg oracle rc rc2 [Ev.readCancel true] := by
  rw [hrc]
  exact Seg_read_true h

theorem Seg_false_then {oracle : Nat → Bool} {rc : Nat} (hmono : MonoOracle oracle)
    (h : oracle rc = false) (e : Ev) (hne : e ≠ Ev.readCancel true) :
    Seg oracle rc (rc + 1) [Ev.readCancel false, e] := by
  refine ⟨Nat.le_succ _, ?_, ?_, ?_⟩
  · simp [cancelClean, noOutB, hne]
  · intro hm
    rcases List.mem_cons.1 hm with h2 | h2
    · simp at h2
    · rcases List.mem_cons.1 h2 with h3 | h3
      · exact absurd h3.symm hne
      · simp at h3
  · rintro ⟨k, hk, hko⟩
    rw [hmono k rc (Nat.le_of_lt hk) hko] at h
    exact absurd h (by simp)

theorem feedTok_Seg (first subseq : Nat) (synth : List Char → Except Unit (List Char))
    {oracle : Nat → Bool} (hmono : MonoOracle oracle) (st : GenSt) (t : List Char) :
    Seg oracle st.rc (feedTok first subseq synth oracle st t).st.rc
      (feedTok first subseq synth oracle st t).trace := by
  by_cases ht : t = []
  · subst ht
    rw [feedTok_nil]
    exact Seg_nil oracle st.rc
  · by_cases hb : boundaryDetected (st.buffer ++ t)
    · by_cases hn : (if st.firstChunkSent then subseq else first) ≤ st.sentCount + 1
      · simp only [feedTok, if_neg ht, hb, if_true, if_pos hn]
        split
        next h1 =>
          exact ⟨Nat.le_succ _, by simp [cancelClean, noOutB],
            fun _ => ⟨st.rc, Nat.lt_succ_self _, h1⟩, fun _ => rfl⟩
        next h1 =>
          rw [Bool.not_eq_true] at h1
          split
          next h2 =>
            exact Seg_append (Seg_cons_read_false h1 (flush_Seg synth hmono
              ⟨st.fullText ++ t, st.buffer ++ t, st.chunkIndex, st.sentCount + 1,
                st.firstChunkSent, st.rc + 1⟩ (strip (st.buffer ++ t)))) (Seg_read_true h2)
          next h2 =>
            rw [Bool.not_eq_true] at h2
            exact Seg_append (Seg_cons_read_false h1 (flush_Seg synth hmono
              ⟨st.fullText ++ t, st.buffer ++ t, st.chunkIndex, st.sentCount + 1,
                st.firstChunkSent, st.rc + 1⟩ (strip (st.buffer ++ t)))) (Seg_read_false h2)
      · rw [feedTok_buffering first subseq synth oracle st t ht hb hn]
        exact Seg_nil oracle st.rc
    · rw [feedTok_noBoundary first subseq synth oracle st t ht (Bool.not_eq_true _ ▸ hb)]
      exact Seg_nil oracle st.rc

theorem runItems_Seg (first subseq : Nat) (synth : List Char → Except Unit (List Char))
    {oracle : Nat → Bool} (hmono : MonoOracle oracle) :
    ∀ (items : List StreamItem) (st : GenSt),
      Seg oracle st.rc (runItems first subseq synth oracle st items).st.rc
        (runItems first subseq synth oracle st items).trace := by
  intro items
  induction items with
  | nil => intro st; exact Seg_nil oracle st.rc
  | cons it rest ih =>
      intro st
      cases it with
      | fail => exact Seg_noOut (by simp [runItems, noOutB, isOutput]) (by simp [runItems])
      | tok t =>
          simp only [runItems]
          split
          next h1 =>
            exact ⟨Nat.le_succ _, by simp [cancelClean, noOutB],
              fun _ => ⟨st.rc, Nat.lt_succ_self _, h1⟩, fun _ => rfl⟩
          next h1 =>
            rw [Bool.not_eq_true] at h1
            split
            next hbroke =>
              exact Seg_cons_read_false h1
                (feedTok_Seg first subseq synth hmono {st with rc := st.rc + 1} t)
            next hbroke =>
              exact Seg_append (Seg_cons_read_false h1
                (feedTok_Seg first subseq synth hmono {st with rc := st.rc + 1} t)) (ih _)

theorem postLoop_Seg (synth : List Char → Except Unit (List Char)) {oracle : Nat → Bool}
    (hmono : MonoOracle oracle) (st : GenSt) :
    Seg oracle st.rc (postLoop synth oracle st).1.rc (postLoop synth oracle st).2 := by
  by_cases hs : strip st.buffer = []
  · simp only [postLoop, if_pos hs]
    split
    next h2 =>
      exact ⟨Nat.le_succ _, by simp [cancelClean, noOutB],
        fun _ => ⟨st.rc, Nat.lt_succ_self _, h2⟩, fun _ => rfl⟩
    next h2 =>
      rw [Bool.not_eq_true] at h2
      exact Seg_false_then hmono h2 _ (by simp)
  · simp only [postLoop, if_neg hs]
    split
    next h1 =>
      split
      next h2 =>
        refine ⟨Nat.le_add_right st.rc 2, rfl,
          fun _ => ⟨st.rc, by show st.rc < st.rc + 1 + 1; omega, h1⟩, fun _ => rfl⟩
      next h2 =>
        exact absurd (hmono st.rc (st.rc + 1) (Nat.le_succ _) h1) (by simp_all)
    next h1 =>
      rw [Bool.not_eq_true] at h1
      split
      next h2 =>
        exact Seg_append (Seg_cons_read_false h1 (flush_Seg synth hmono
          ⟨st.fullText, st.buffer, st.chunkIndex, st.sentCount, st.firstChunkSent,
            st.rc + 1⟩ (strip st.buffer))) (Seg_read_true h2)
      next h2 =>
        rw [Bool.not_eq_true] at h2
        exact Seg_append (Seg_cons_read_false h1 (flush_Seg synth hmono
          ⟨st.fullText, st.buffer, st.chunkIndex, st.sentCount, st.firstChunkSent,
            st.rc + 1⟩ (strip st.buffer))) (Seg_false_then hmono h2 _ (by simp))

theorem processTurn_cancelClean (first subseq : Nat)
    (synth : List Char → Except Unit (List Char)) {oracle : Nat → Bool}
    (hmono : MonoOracle oracle) (items : List StreamItem) :
    cancelClean (processTurn first subseq synth oracle items).trace = true := by
  have hrun := runItems_Seg first subseq synth hmono items genInit
  have hpost := postLoop_Seg synth hmono
    (runItems first subseq synth oracle genInit items).st
  simp only [processTurn, stream_chat_and_speak]
  split
  next hr =>
    exact (Seg_append hrun (Seg_noOut (by simp [noOutB, isOutput]) (by simp))).2.1
  next hr =>
    exact (Seg_append hrun hpost).2.1

/-- C2: for any turn, any synthesis behaviour, and any monotone schedule of
the cancellation flag (the token's flag is set at most once and never
cleared), once a checkpoint read returns `true` — the loop-top check, the
pre-flush check, both checks inside `flush_tts_chunk` (including the
recheck after the synthesis call returns), the post-flush check, and the
final-section guards — no later `text_chunk`, `audio_chunk`, or
`stream_complete` event is emitted for the turn; and the session's
generation-in-progress flag is cleared when the turn exits. -/
theorem cancellation_stops_output (first subseq : Nat)
    (synth : List Char → Except Unit (List Char)) (oracle : Nat → Bool) (c : Ctl)
    (items : List StreamItem)
    (hmono : ∀ m n : Nat, m ≤ n → oracle m = true → oracle n = true) :
    cancelClean (process_and_respond first subseq synth oracle c items).out.trace = true ∧
    (process_and_respond first subseq synth oracle c items).ctl.processingLock = false :=
  ⟨processTurn_cancelClean first subseq synth hmono items, rfl⟩

/-- C2 witness: a schedule whose flag flips to `true` at the fourth read —
during the first chunk's synthesis call, after its `text_chunk` was
emitted. -/
theorem cancellation_stops_output_witness :
    cancelClean (process_and_respond 1 2 synthOk (fun n => decide (3 ≤ n)) ⟨false, none⟩
        [StreamItem.tok "This is a sentence one.".data]).out.trace = true ∧
    (process_and_respond 1 2 synthOk (fun n => decide (3 ≤ n)) ⟨false, none⟩
        [StreamItem.tok "This is a sentence one.".data]).ctl.processingLock = false :=
  cancellation_stops_output 1 2 synthOk (fun n => decide (3 ≤ n)) ⟨false, none⟩
    [StreamItem.tok "This is a sentence one.".data]
    (fun m n hmn hm => by
      simp only [decide_eq_true_eq] at *
      omega)

/-! ## C3 — admission guard -/

/-- C3: when a turn arrives while the session's generation-in-progress
flag is set, `process_and_respond` first sets the cancelled flag of the
currently registered token and yields control, and only then takes the
lock and proceeds — its admission preamble is exactly check, cancel,
yield, acquire; and a generation whose token is cancelled (all subsequent
flag reads return `true`) emits no further output from any state of its
loop or its final section, which is what keeps at most one generation per
session producing output. -/
theorem admission_cancels_prior (c : Ctl) (h : c.processingLock = true) :
    (admitTurn c).2 = [.checkLock true, .cancelPrior, .yieldCtl, .acquireLock] ∧
    (admitTurn c).1.tokenCancelled = c.tokenCancelled.map (fun _ => true) ∧
    (admitTurn c).1.processingLock = true ∧
    (∀ (first subseq : Nat) (synth : List Char → Except Unit (List Char)) (st : GenSt)
        (items : List StreamItem),
      noOutB (runItems first subseq synth oracleTrue st items).trace = true ∧
      noOutB (postLoop synth oracleTrue st).2 = true) := by
  refine ⟨?_, ?_, ?_, fun first subseq synth st items => ⟨?_, ?_⟩⟩
  · simp [admitTurn, h]
  · simp [admitTurn, h, cancel_generation]
  · simp [admitTurn, h]
  · cases items with
    | nil => rfl
    | cons it rest =>
        cases it with
        | fail => rfl
        | tok t => simp [runItems, oracleTrue, noOutB, isOutput]
  · by_cases hs : strip st.buffer = []
    · simp [postLoop, oracleTrue, hs, noOutB, isOutput]
    · simp [postLoop, oracleTrue, hs, noOutB, isOutput]

/-- C3 witness: the guard applied to a session whose lock is held and
whose registered token is not yet cancelled. -/
theorem admission_cancels_prior_witness :
    ((⟨true, some false⟩ : Ctl).processingLock = true) ∧
    (admitTurn ⟨true, some false⟩).2 =
      [.checkLock true, .cancelPrior, .yieldCtl, .acquireLock] ∧
    (admitTurn ⟨true, some false⟩).1.tokenCancelled =
      (some false).map (fun _ => true) ∧
    (admitTurn ⟨true, some false⟩).1.processingLock = true ∧
    (∀ (first subseq : Nat) (synth : List Char → Except Unit (List Char)) (st : GenSt)
        (items : List StreamItem),
      noOutB (runItems first subseq synth oracleTrue st items).trace = true ∧
      noOutB (postLoop synth oracleTrue st).2 = true) :=
  ⟨by decide, admission_cancels_prior ⟨true, some false⟩ (by decide)⟩

/-! ## Lemmas about audio indices and status events -/

@[simp]
theorem audioIdx_nil : audioIdx [] = [] := rfl

@[simp]
theorem audioIdx_append (a b : List Ev) : audioIdx (a ++ b) = audioIdx a ++ audioIdx b :=
  List.filterMap_append a b _

@[simp]
theorem audioIdx_readCancel_cons (b : Bool) (l : List Ev) :
    audioIdx (Ev.readCancel b :: l) = audioIdx l := rfl

@[simp]
theorem audioIdx_textChunk_cons (t : List Char) (i : Nat) (l : List Ev) :
    audioIdx (Ev.textChunk t i :: l) = audioIdx l := rfl

@[simp]
theorem audioIdx_audioChunk_cons (a : List Char) (i : Nat) (l : List Ev) :
    audioIdx (Ev.audioChunk a i :: l) = i :: audioIdx l := rfl

@[simp]
theorem audioIdx_streamComplete_cons (f : List Char) (n : Nat) (l : List Ev) :
    audioIdx (Ev.streamComplete f n :: l) = audioIdx l := rfl

@[simp]
theorem audioIdx_logError_cons (l : List Ev) : audioIdx (Ev.logError :: l) = audioIdx l := rfl

@[simp]
theorem audioIdx_statusMsg_cons (m : List Char) (l : List Ev) :
    audioIdx (Ev.statusMsg m :: l) = audioIdx l := rfl

@[simp]
theorem statusCount_nil : statusCount [] = 0 := rfl

@[simp]
theorem statusCount_append (a b : List Ev) :
    statusCount (a ++ b) = statusCount a + statusCount b := by
  simp [statusCount, List.filter_append]

@[simp]
theorem statusCount_readCancel_cons (b : Bool) (l : List Ev) :
    statusCount (Ev.readCancel b :: l) = statusCount l := rfl

@[simp]
theorem statusCount_textChunk_cons (t : List Char) (i : Nat) (l : List Ev) :
    statusCount (Ev.textChunk t i :: l) = statusCount l := rfl

@[simp]
theorem statusCount_audioChunk_cons (a : List Char) (i : Nat) (l : List Ev) :
    statusCount (Ev.audioChunk a i :: l) = statusCount l := rfl

@[simp]
theorem statusCount_streamComplete_cons (f : List Char) (n : Nat) (l : List Ev) :
    statusCount (Ev.streamComplete f n :: l) = statusCount l := rfl

@[simp]
theorem statusCount_logError_cons (l : List Ev) :
    statusCount (Ev.logError :: l) = statusCount l := rfl

@[simp]
theorem statusCount_statusMsg_cons (m : List Char) (l : List Ev) :
    statusCount (Ev.statusMsg m :: l) = statusCount l + 1 := by
  simp [statusCount, List.filter_cons]

theorem flush_no_status (synth : List Char → Except Unit (List Char)) (oracle : Nat → Bool)
    (st : GenSt) (text : List Char) :
    statusCount (flush_tts_chunk synth oracle st text).2 = 0 := by
  simp only [flush_tts_chunk]
  repeat' split
  all_goals rfl

theorem feedTok_no_status (first subseq : Nat) (synth : List Char → Except Unit (List Char))
    (oracle : Nat → Bool) (st : GenSt) (t : List Char) :
    statusCount (feedTok first subseq synth oracle st t).trace = 0 := by
  simp only [feedTok]
  repeat' split
  all_goals simp [flush_no_status]

theorem runItems_no_status (first subseq : Nat) (synth : List Char → Except Unit (List Char))
    (oracle : Nat → Bool) :
    ∀ (items : List StreamItem) (st : GenSt),
      statusCount (runItems first subseq synth oracle st items).trace = 0 := by
  intro items
  induction items with
  | nil => intro st; rfl
  | cons it rest ih =>
      intro st
      cases it with
      | fail => rfl
      | tok t =>
          simp only [runItems]
          split
          · rfl
          · split
            · simp [feedTok_no_status]
            · simp [feedTok_no_status, ih]

theorem postLoop_no_status (synth : List Char → Except Unit (List Char))
    (oracle : Nat → Bool) (st : GenSt) :
    statusCount (postLoop synth oracle st).2 = 0 := by
  simp only [postLoop]
  repeat' split
  all_goals simp [flush_no_status]

theorem flush_audio (synth : List Char → Except Unit (List Char)) (oracle : Nat → Bool)
    (st : GenSt) (text : List Char) :
    st.chunkIndex ≤ (flush_tts_chunk synth oracle st text).1.chunkIndex ∧
    (audioIdx (flush_tts_chunk synth oracle st text).2 = [] ∨
      (audioIdx (flush_tts_chunk synth oracle st text).2 = [st.chunkIndex] ∧
        (flush_tts_chunk synth oracle st text).1.chunkIndex = st.chunkIndex + 1 ∧
        ∃ a, synth text = Except.ok a)) := by
  simp only [flush_tts_chunk]
  repeat' split
  · exact ⟨Nat.le_refl _, Or.inl rfl⟩
  · exact ⟨Nat.le_refl _, Or.inl rfl⟩
  · exact ⟨Nat.le_succ _, Or.inl rfl⟩
  · exact ⟨Nat.le_succ _, Or.inl rfl⟩
  · exact ⟨Nat.le_succ _, Or.inl (by simp)⟩
  next a ha _ =>
    exact ⟨Nat.le_succ _, Or.inr ⟨by simp, rfl, a, ha⟩⟩

theorem feedTok_audio (first subseq : Nat) (synth : List Char → Except Unit (List Char))
    (oracle : Nat → Bool) (st : GenSt) (t : List Char) :
    st.chunkIndex ≤ (feedTok first subseq synth oracle st t).st.chunkIndex ∧
    (audioIdx (feedTok first subseq synth oracle st t).trace = [] ∨
      (audioIdx (feedTok first subseq synth oracle st t).trace = [st.chunkIndex] ∧
        (feedTok first subseq synth oracle st t).st.chunkIndex = st.chunkIndex + 1 ∧
        ∃ text a, synth text = Except.ok a)) := by
  by_cases ht : t = []
  · subst ht
    rw [feedTok_nil]
    exact ⟨Nat.le_refl _, Or.inl rfl⟩
  · by_cases hb : boundaryDetected (st.buffer ++ t)
    · by_cases hn : (if st.firstChunkSent then subseq else first) ≤ st.sentCount + 1
      · simp only [feedTok, if_neg ht, hb, if_true, if_pos hn]
        split
        · exact ⟨Nat.le_refl _, Or.inl rfl⟩
        · obtain ⟨hle, hcase⟩ := flush_audio synth oracle
            ⟨st.fullText ++ t, st.buffer ++ t, st.chunkIndex, st.sentCount + 1,
              st.firstChunkSent, st.rc + 1⟩ (strip (st.buffer ++ t))
          split
          · rcases hcase with h1 | ⟨h1, h2, a2, ha⟩
            · exact ⟨hle, Or.inl (by simp [h1])⟩
            · exact ⟨hle, Or.inr ⟨by simp [h1], h2, _, _, ha⟩⟩
          · rcases hcase with h1 | ⟨h1, h2, a2, ha⟩
            · exact ⟨hle, Or.inl (by simp [h1])⟩
            · exact ⟨hle, Or.inr ⟨by simp [h1], h2, _, _, ha⟩⟩
      · rw [feedTok_buffering first subseq synth oracle st t ht hb hn]
        exact ⟨Nat.le_refl _, Or.inl rfl⟩
    · rw [feedTok_noBoundary first subseq synth oracle st t ht (Bool.not_eq_true _ ▸ hb)]
      exact ⟨Nat.le_refl _, Or.inl rfl⟩

theorem runItems_audio (first subseq : Nat) (synth : List Char → Except Unit (List Char))
    (oracle : Nat → Bool) :
    ∀ (items : List StreamItem) (st : GenSt),
      st.chunkIndex ≤ (runItems first subseq synth oracle st items).st.chunkIndex ∧
      (∀ i ∈ audioIdx (runItems first subseq synth oracle st items).trace,
        st.chunkIndex ≤ i ∧
          i < (runItems first subseq synth oracle st items).st.chunkIndex) ∧
      List.Pairwise (· < ·) (audioIdx (runItems first subseq synth oracle st items).trace) ∧
      (audioIdx (runItems first subseq synth oracle st items).trace ≠ [] →
        ∃ text a, synth text = Except.ok a) := by
  intro items
  induction items with
  | nil => intro st; exact ⟨Nat.le_refl _, by simp [runItems], by simp [runItems],
      by simp [runItems]⟩
  | cons it rest ih =>
      intro st
      cases it with
      | fail =>
          exact ⟨Nat.le_refl _, by simp [runItems], by simp [runItems], by simp [runItems]⟩
      | tok t =>
          simp only [runItems]
          split
          next h1 => exact ⟨Nat.le_refl _, by simp, by simp, by simp⟩
          next h1 =>
            obtain ⟨hle1, hcase1⟩ := feedTok_audio first subseq synth oracle
              {st with rc := st.rc + 1} t
            simp only [] at hle1 hcase1
            split
            next hbroke =>
              refine ⟨hle1, ?_, ?_, ?_⟩
              · intro i hi
                simp only [audioIdx_readCancel_cons] at hi
                rcases hcase1 with h2 | ⟨h2, h3, _⟩
                · rw [h2] at hi; simp at hi
                · rw [h2] at hi
                  simp only [List.mem_singleton] at hi
                  subst hi
                  refine ⟨Nat.le_refl _, ?_⟩
                  simp only []
                  omega
              · rcases hcase1 with h2 | ⟨h2, _, _⟩
                · show List.Pairwise _ (audioIdx (Ev.readCancel false ::
                    (feedTok first subseq synth oracle {st with rc := st.rc + 1} t).trace))
                  rw [audioIdx_readCancel_cons, h2]
                  exact List.Pairwise.nil
                · show List.Pairwise _ (audioIdx (Ev.readCancel false ::
                    (feedTok first subseq synth oracle {st with rc := st.rc + 1} t).trace))
                  rw [audioIdx_readCancel_cons, h2]
                  simp
              · intro hne
                simp only [] at hne
                rcases hcase1 with h2 | ⟨_, _, hok⟩
                · simp only [audioIdx_readCancel_cons, h2] at hne
                  exact absurd rfl hne
                · exact hok
            next hbroke =>
              obtain ⟨hle2, hmem2, hpw2, hne2⟩ := ih (feedTok first subseq synth oracle
                {st with rc := st.rc + 1} t).st
              refine ⟨le_trans hle1 hle2, ?_, ?_, ?_⟩
              · intro i hi
                simp only [List.cons_append, audioIdx_readCancel_cons, audioIdx_append,
                  List.mem_append] at hi
                rcases hi with hi | hi
                · rcases hcase1 with h2 | ⟨h2, h3, _⟩
                  · rw [h2] at hi; simp at hi
                  · rw [h2] at hi
                    simp only [List.mem_singleton] at hi
                    subst hi
                    refine ⟨Nat.le_refl _, ?_⟩
                    simp only []
                    omega
                · obtain ⟨ha, hb⟩ := hmem2 i hi
                  exact ⟨le_trans hle1 ha, hb⟩
              · show List.Pairwise _ (audioIdx ((Ev.readCancel false ::
                  (feedTok first subseq synth oracle {st with rc := st.rc + 1} t).trace) ++
                    (runItems first subseq synth oracle _ rest).trace))
                rw [List.cons_append, audioIdx_readCancel_cons, audioIdx_append]
                refine List.pairwise_append.2 ⟨?_, hpw2, ?_⟩
                · rcases hcase1 with h2 | ⟨h2, _, _⟩
                  · rw [h2]; exact List.Pairwise.nil
                  · rw [h2]; simp
                · intro a ha b hb
                  rcases hcase1 with h2 | ⟨h2, h3, _⟩
                  · rw [h2] at ha; simp at ha
                  · rw [h2] at ha
                    simp only [List.mem_singleton] at ha
                    subst ha
                    obtain ⟨hb1, _⟩ := hmem2 b hb
                    omega
              · intro hne
                simp only [List.cons_append, audioIdx_readCancel_cons, audioIdx_append] at hne
                rcases hcase1 with h2 | ⟨_, _, hok⟩
                · rw [h2] at hne
                  exact hne2 (by simpa using hne)
                · exact hok

theorem postLoop_audio (synth : List Char → Except Unit (List Char)) (oracle : Nat → Bool)
    (st : GenSt) :
    st.chunkIndex ≤ (postLoop synth oracle st).1.chunkIndex ∧
    (audioIdx (postLoop synth oracle st).2 = [] ∨
      (audioIdx (postLoop synth oracle st).2 = [st.chunkIndex] ∧
        (postLoop synth oracle st).1.chunkIndex = st.chunkIndex + 1 ∧
        ∃ text a, synth text = Except.ok a)) := by
  by_cases hs : strip st.buffer = []
  · simp only [postLoop, if_pos hs]
    split
    · exact ⟨Nat.le_refl _, Or.inl rfl⟩
    · exact ⟨Nat.le_refl _, Or.inl rfl⟩
  · simp only [postLoop, if_neg hs]
    split
    next h1 =>
      split
      · exact ⟨Nat.le_refl _, Or.inl rfl⟩
      · exact ⟨Nat.le_refl _, Or.inl rfl⟩
    next h1 =>
      obtain ⟨hle, hcase⟩ := flush_audio synth oracle
        ⟨st.fullText, st.buffer, st.chunkIndex, st.sentCount, st.firstChunkSent, st.rc + 1⟩
        (strip st.buffer)
      split
      · rcases hcase with h2 | ⟨h2, h3, a2, ha⟩
        · exact ⟨hle, Or.inl (by simp [h2])⟩
        · exact ⟨hle, Or.inr ⟨by simp [h2], h3, _, _, ha⟩⟩
      · rcases hcase with h2 | ⟨h2, h3, a2, ha⟩
        · exact ⟨hle, Or.inl (by simp [h2])⟩
        · exact ⟨hle, Or.inr ⟨by simp [h2], h3, _, _, ha⟩⟩

theorem processTurn_audio (first subseq : Nat) (synth : List Char → Except Unit (List Char))
    (oracle : Nat → Bool) (items : List StreamItem) :
    List.Pairwise (· < ·) (audioIdx (processTurn first subseq synth oracle items).trace) ∧
    (audioIdx (processTurn first subseq synth oracle items).trace ≠ [] →
      ∃ text a, synth text = Except.ok a) := by
  obtain ⟨hle1, hmem1, hpw1, hne1⟩ := runItems_audio first subseq synth oracle items genInit
  obtain ⟨hle2, hcase2⟩ := postLoop_audio synth oracle
    (runItems first subseq synth oracle genInit items).st
  simp only [processTurn, stream_chat_and_speak]
  split
  next hr =>
    constructor
    · show List.Pairwise _ (audioIdx ((runItems first subseq synth oracle genInit items).trace
        ++ [Ev.logError, Ev.statusMsg genericFailureMsg]))
      simpa using hpw1
    · intro hne
      apply hne1
      try simp only [] at hne
      simpa using hne
  next hr =>
    constructor
    · show List.Pairwise _ (audioIdx ((runItems first subseq synth oracle genInit items).trace
        ++ (postLoop synth oracle (runItems first subseq synth oracle genInit items).st).2))
      rw [audioIdx_append]
      refine List.pairwise_append.2 ⟨hpw1, ?_, ?_⟩
      · rcases hcase2 with h2 | ⟨h2, _, _⟩
        · rw [h2]; exact List.Pairwise.nil
        · rw [h2]; simp
      · intro a ha b hb
        rcases hcase2 with h2 | ⟨h2, _, _⟩
        · rw [h2] at hb; simp at hb
        · rw [h2] at hb
          simp only [List.mem_singleton] at hb
          subst hb
          exact (hmem1 a ha).2
    · intro hne
      simp only [Bool.false_eq_true, if_false, audioIdx_append] at hne
      by_cases h : audioIdx (runItems first subseq synth oracle genInit items).trace = []
      · rcases hcase2 with h2 | ⟨_, _, hok⟩
        · rw [h, h2] at hne
          exact absurd rfl hne
        · exact hok
      · exact hne1 h

theorem runItems_fail_raised (first subseq : Nat)
    (synth : List Char → Except Unit (List Char)) :
    ∀ (toks : List (List Char)) (st : GenSt),
      (runItems first subseq synth oracleFalse st
        (toks.map .tok ++ [StreamItem.fail])).raised = true := by
  intro toks
  induction toks with
  | nil => intro st; rfl
  | cons t rest ih =>
      intro st
      simp only [List.map_cons, List.cons_append, runItems, oracleFalse, Bool.false_eq_true,
        if_false]
      obtain ⟨hbroke, _, _⟩ := feedTok_false_cases first subseq synth
        {st with rc := st.rc + 1} t
      simp [hbroke, ih]

/-! ## C9 — error handling -/

/-- C9 (amended): when the upstream model stream raises, the turn's
output is exactly the events already emitted followed by an error log and
one generic status event — one terse status, no internal detail,
previously emitted chunks retained.  When only synthesis calls raise, no
status event is emitted at all (the error is logged inside the flush and
the turn continues), and no audio is emitted for any chunk whose
synthesis failed — with an always-failing synthesizer the turn emits no
audio whatsoever. -/
theorem error_status_events (first subseq : Nat)
    (synth : List Char → Except Unit (List Char)) :
    (∀ toks : List (List Char),
      (processTurn first subseq synth oracleFalse
          (toks.map .tok ++ [StreamItem.fail])).trace =
        (runItems first subseq synth oracleFalse genInit
            (toks.map .tok ++ [StreamItem.fail])).trace ++
          [Ev.logError, Ev.statusMsg genericFailureMsg] ∧
      statusCount (processTurn first subseq synth oracleFalse
          (toks.map .tok ++ [StreamItem.fail])).trace = 1) ∧
    (∀ toks : List (List Char),
      statusCount (processTurn first subseq synth oracleFalse (toks.map .tok)).trace = 0) ∧
    (∀ toks : List (List Char),
      audioIdx (processTurn first subseq synthFail oracleFalse (toks.map .tok)).trace =
        []) := by
  refine ⟨fun toks => ?_, fun toks => ?_, fun toks => ?_⟩
  · have hr := runItems_fail_raised first subseq synth toks genInit
    have htr : (processTurn first subseq synth oracleFalse
        (toks.map .tok ++ [StreamItem.fail])).trace =
        (runItems first subseq synth oracleFalse genInit
            (toks.map .tok ++ [StreamItem.fail])).trace ++
          [Ev.logError, Ev.statusMsg genericFailureMsg] := by
      simp only [processTurn, stream_chat_and_speak, hr, if_true]
    refine ⟨htr, ?_⟩
    rw [htr]
    simp [runItems_no_status]
  · obtain ⟨segs, _, _, hseg3, _⟩ := runItems_concat first subseq synth toks genInit
    have htr : (processTurn first subseq synth oracleFalse (toks.map .tok)).trace =
        (runItems first subseq synth oracleFalse genInit (toks.map .tok)).trace ++
          (postLoop synth oracleFalse
            (runItems first subseq synth oracleFalse genInit (toks.map .tok)).st).2 := by
      simp only [processTurn, stream_chat_and_speak, hseg3, Bool.false_eq_true, if_false]
    rw [htr]
    simp [runItems_no_status, postLoop_no_status]
  · by_cases hne : audioIdx (processTurn first subseq synthFail oracleFalse
        (toks.map .tok)).trace = []
    · exact hne
    · obtain ⟨text, a, hok⟩ := (processTurn_audio first subseq synthFail oracleFalse
        (toks.map .tok)).2 hne
      simp [synthFail] at hok

/-- C9 counterexample: a synthesis failure during a turn is logged but
emits no status event (the claim requires exactly one terse status event
per failure); the turn continues, emits the chunk's text and no audio,
and still reaches `stream_complete`. -/
theorem synth_error_no_status_counterexample :
    statusCount (processTurn 1 2 synthFail oracleFalse
        [StreamItem.tok "This is a sentence one.".data]).trace = 0 ∧
    Ev.logError ∈ (processTurn 1 2 synthFail oracleFalse
        [StreamItem.tok "This is a sentence one.".data]).trace ∧
    Ev.textChunk "This is a sentence one.".data 0 ∈ (processTurn 1 2 synthFail oracleFalse
        [StreamItem.tok "This is a sentence one.".data]).trace ∧
    audioIdx (processTurn 1 2 synthFail oracleFalse
        [StreamItem.tok "This is a sentence one.".data]).trace = [] ∧
    Ev.streamComplete "This is a sentence one.".data 1 ∈ (processTurn 1 2 synthFail
        oracleFalse [StreamItem.tok "This is a sentence one.".data]).trace := by
  exact ⟨by decide, by decide, by decide, by decide, by decide⟩

/-! ## C10 — text/audio decoupling -/

/-- C10: a cancellation observed after a chunk's `text_chunk` event but
before its audio is emitted leaves a text chunk with no matching audio
chunk while `chunk_index` and `first_chunk_sent` still advance; audio
chunk indices never repeat or decrease in any run; and with a synthesis
failure on an earlier chunk the audio indices of a turn can skip values. -/
theorem text_audio_decoupling :
    (Ev.textChunk "This is a sentence one.".data 0 ∈
        (processTurn 1 2 synthOk (fun n => decide (3 ≤ n))
          [StreamItem.tok "This is a sentence one.".data]).trace ∧
      audioIdx (processTurn 1 2 synthOk (fun n => decide (3 ≤ n))
          [StreamItem.tok "This is a sentence one.".data]).trace = [] ∧
      (processTurn 1 2 synthOk (fun n => decide (3 ≤ n))
          [StreamItem.tok "This is a sentence one.".data]).st.chunkIndex = 1 ∧
      (processTurn 1 2 synthOk (fun n => decide (3 ≤ n))
          [StreamItem.tok "This is a sentence one.".data]).st.firstChunkSent = true) ∧
    (∀ (first subseq : Nat) (synth : List Char → Except Unit (List Char))
        (oracle : Nat → Bool) (items : List StreamItem),
      List.Pairwise (· < ·)
        (audioIdx (processTurn first subseq synth oracle items).trace)) ∧
    (audioIdx (processTurn 1 2
        (fun t => if t = "First sentence here one.".data then Except.error ()
          else Except.ok t) oracleFalse
        [StreamItem.tok "First sentence here one.".data,
          StreamItem.tok " Second two.".data,
          StreamItem.tok " Third three.".data]).trace = [1] ∧
      Ev.textChunk "First sentence here one.".data 0 ∈
        (processTurn 1 2
          (fun t => if t = "First sentence here one.".data then Except.error ()
            else Except.ok t) oracleFalse
          [StreamItem.tok "First sentence here one.".data,
            StreamItem.tok " Second two.".data,
            StreamItem.tok " Third three.".data]).trace) :=
  ⟨⟨by decide, by decide, by decide, by decide⟩,
    fun first subseq synth oracle items =>
      (processTurn_audio first subseq synth oracle items).1,
    by decide, by decide⟩

end InterviewPrep
